import Mathlib

/-!
# A verification model of `bimap` (two intrusive treaps over shared entries)

This file embeds the repository's data structures in Lean 4:

* `intrusive-set.h` — a treap (`intrusive::set`) built from `split`/`merge`,
  with `insert`, pointer-based `erase`, `find`/`lower_bound`/`upper_bound`
  (which transiently restructure the tree), and inorder traversal via
  parent-pointer threading (`get_next`/`get_prev`).
* `bimap.h` — a bidirectional map owning two such treaps (the left index
  ordered by `CompareLeft` on the left value, the right index by
  `CompareRight` on the right value) over a single pool of entries, plus
  iterators whose `flip` jumps in O(1) between the two views of one entry.

Trees are embedded as inductive binary trees whose nodes carry the entry
value and the random priority `y` (`set_element_base::y`); the priorities
that C++ draws from `rand()` are threaded as explicit arguments, and every
theorem holds for all priority choices.  A position (iterator) of an index
is embedded as `Option entry`: `some e` is the position of the live entry
`e`, `none` is the `end` position (the shared sentinel `root_pair`).
Comparators are boolean relations stored in the bimap state, as in the C++
template parameters; `==` on values is propositional equality
(`DecidableEq`), matching the separate use of `operator==` in the source.
-/

set_option linter.unusedSectionVars false

namespace BimapModel

/-- A treap node of `intrusive::set`: left child, stored value, the random
priority `set_element_base::y`, right child.  `nil` is the null pointer. -/
inductive Tree (α : Type) where
  | nil : Tree α
  | node : Tree α → α → Nat → Tree α → Tree α
deriving DecidableEq, Repr

namespace Tree

variable {α β : Type}

/-- Inorder traversal of a tree: the sequence `begin .. end` that the
parent-pointer threaded iteration of `intrusive::set` visits. -/
def inorder : Tree α → List α
  | .nil => []
  | .node l x _ r => inorder l ++ x :: inorder r

/-- The branch condition of `set::split`: a node `x` is sent to the second
component iff `comparator(value, x) || value == x` (for `lower = false`)
or `comparator(value, x)` (for `lower = true`). -/
def splitPred [DecidableEq β] (lt : β → β → Bool) (v : β) (lower : Bool) (x : β) : Bool :=
  (!lower && (lt v x || decide (v = x))) || (lower && lt v x)

/-- `set::split(tr, value, lower)` from `intrusive-set.h`: partitions the
tree at `v`, guided by the BST structure. -/
def splitT [DecidableEq β] (lt : β → β → Bool) (key : α → β) (v : β) (lower : Bool) :
    Tree α → Tree α × Tree α
  | .nil => (.nil, .nil)
  | .node l x y r =>
    if splitPred lt v lower (key x) then
      ((splitT lt key v lower l).1, .node (splitT lt key v lower l).2 x y r)
    else
      (.node l x y (splitT lt key v lower r).1, (splitT lt key v lower r).2)

/-- `set::merge(left, right)`: merges two treaps, every element of `left`
preceding every element of `right`; the root is the side with the smaller
priority `y`. -/
def mergeT : Tree α → Tree α → Tree α
  | .nil, t => t
  | .node la xa ya ra, .nil => .node la xa ya ra
  | .node la xa ya ra, .node lb xb yb rb =>
    if ya < yb then .node la xa ya (mergeT ra (.node lb xb yb rb))
    else .node (mergeT (.node la xa ya ra) lb) xb yb rb

/-- `set::get_min`: the leftmost node of the tree (`none` for the null
tree), i.e. the `begin` position of the index. -/
def getMinT : Tree α → Option α
  | .nil => none
  | .node .nil x _ _ => some x
  | .node (.node ll lx ly lr) _ _ _ => getMinT (.node ll lx ly lr)

/-- `set::insert(value)` with a fresh priority `y`: split at the value
(then split the upper part strictly) to isolate an equal element; if none
exists the new node is merged in, otherwise the tree is reassembled
unchanged.  Returns the value at the position the returned iterator points
to, together with the new tree. -/
def insertT [DecidableEq β] (lt : β → β → Bool) (key : α → β) (x : α) (y : Nat)
    (t : Tree α) : α × Tree α :=
  let p := splitT lt key (key x) false t
  let p1 := splitT lt key (key x) true p.2
  match p1.1 with
  | .nil => (x, mergeT p.1 (mergeT (.node .nil x y .nil) p1.2))
  | .node _ xv _ _ => (xv, mergeT p.1 (mergeT p1.1 p1.2))

/-- `set::erase(ptr)` at the node holding value `e`: the node's two
subtrees are merged and relinked into the parent slot.  The C++ erase
works on the node's pointer; in a tree whose inorder holds `e` at most
once this recursion removes exactly that node. -/
def eraseNode [DecidableEq α] (e : α) : Tree α → Tree α
  | .nil => .nil
  | .node l x y r =>
    if x = e then mergeT l r
    else .node (eraseNode e l) x y (eraseNode e r)

/-- `set::lower_bound(value)`: split at the value, take the minimum of the
upper part, then merge the two parts back into the root slot.  Returns the
found position and the (restructured) tree. -/
def lowerBoundT [DecidableEq β] (lt : β → β → Bool) (key : α → β) (v : β)
    (t : Tree α) : Option α × Tree α :=
  let p := splitT lt key v false t
  (getMinT p.2, mergeT p.1 p.2)

/-- `set::find(value)`: `lower_bound`, then compare the found element with
the query by `==`. -/
def findT [DecidableEq β] (lt : β → β → Bool) (key : α → β) (v : β)
    (t : Tree α) : Option α × Tree α :=
  let m := lowerBoundT lt key v t
  match m.1 with
  | some e => (if key e = v then some e else none, m.2)
  | none => (none, m.2)

/-- The inorder successor of the node holding `e`, i.e. what
`set::get_next` computes by parent-pointer threading; `none` when the
successor is the sentinel (`end`). -/
def nextAfter [DecidableEq α] : List α → α → Option α
  | [], _ => none
  | x :: rest, e => if x = e then rest.head? else nextAfter rest e

/-- `set::upper_bound(value)`: `lower_bound`, then advance once when the
found element compares equal to the query. -/
def upperBoundT [DecidableEq β] [DecidableEq α] (lt : β → β → Bool) (key : α → β)
    (v : β) (t : Tree α) : Option α × Tree α :=
  let m := lowerBoundT lt key v t
  match m.1 with
  | some e => (if key e = v then nextAfter (inorder m.2) e else some e, m.2)
  | none => (none, m.2)

end Tree

open Tree

/-- The observable state of a `bimap<Left, Right, CompareLeft, CompareRight>`:
the two comparator objects, the left index (a treap over the entries keyed
by the left value), the right index (the same entries keyed by the right
value), and the size counter `size_`. -/
structure BM (L R : Type) where
  cmpL : L → L → Bool
  cmpR : R → R → Bool
  ltree : Tree (L × R)
  rtree : Tree (L × R)
  sz : Nat

variable {L R : Type} [DecidableEq L] [DecidableEq R]

/-- The default constructor `bimap(left_cmp, right_cmp)`: both indices
empty, `size_ = 0`. -/
def emptyBM (cL : L → L → Bool) (cR : R → R → Bool) : BM L R :=
  ⟨cL, cR, .nil, .nil, 0⟩

/-- `end_left()` — the `end` position of the left index (the shared
sentinel `root_pair`). -/
def endL : Option (L × R) := (none : Option (L × R))

/-- `end_right()` — the `end` position of the right index (the shared
sentinel `root_pair`). -/
def endR : Option (L × R) := (none : Option (L × R))

/-- `begin_left()` — the minimum of the left index, `end_left()` when the
bimap is empty. -/
def beginL (b : BM L R) : Option (L × R) := getMinT b.ltree

/-- `begin_right()` — the minimum of the right index. -/
def beginR (b : BM L R) : Option (L × R) := getMinT b.rtree

/-- `bimap_iterator::flip` on a left-index position: for a live entry the
facet pointer is cast through the owning `pair` node to the right facet of
the same entry; the sentinel (`!it->has_parent()`) is special-cased and
cast through the shared `root_pair`, yielding `end_right()`. -/
def flipL : Option (L × R) → Option (L × R)
  | none => (none : Option (L × R))
  | some e => some e

/-- `bimap_iterator::flip` on a right-index position (symmetric). -/
def flipR : Option (L × R) → Option (L × R)
  | none => (none : Option (L × R))
  | some e => some e

/-- `find_left(left)`: `l.find(left)` — which transiently restructures the
left tree (split then merge back into the root slot).  Returns the found
position and the post-call state. -/
def findLeftB (b : BM L R) (k : L) : Option (L × R) × BM L R :=
  let m := findT b.cmpL Prod.fst k b.ltree
  (m.1, ⟨b.cmpL, b.cmpR, m.2, b.rtree, b.sz⟩)

/-- `find_right(right)`: `r.find(right)`. -/
def findRightB (b : BM L R) (k : R) : Option (L × R) × BM L R :=
  let m := findT b.cmpR Prod.snd k b.rtree
  (m.1, ⟨b.cmpL, b.cmpR, b.ltree, m.2, b.sz⟩)

/-- `lower_bound_left(left)`: `l.lower_bound(left)`. -/
def lowerBoundLeftB (b : BM L R) (k : L) : Option (L × R) × BM L R :=
  let m := lowerBoundT b.cmpL Prod.fst k b.ltree
  (m.1, ⟨b.cmpL, b.cmpR, m.2, b.rtree, b.sz⟩)

/-- `upper_bound_left(left)`: `l.upper_bound(left)`. -/
def upperBoundLeftB (b : BM L R) (k : L) : Option (L × R) × BM L R :=
  let m := upperBoundT b.cmpL Prod.fst k b.ltree
  (m.1, ⟨b.cmpL, b.cmpR, m.2, b.rtree, b.sz⟩)

/-- `lower_bound_right(right)`: `r.lower_bound(right)`. -/
def lowerBoundRightB (b : BM L R) (k : R) : Option (L × R) × BM L R :=
  let m := lowerBoundT b.cmpR Prod.snd k b.rtree
  (m.1, ⟨b.cmpL, b.cmpR, b.ltree, m.2, b.sz⟩)

/-- `upper_bound_right(right)`: `r.upper_bound(right)`. -/
def upperBoundRightB (b : BM L R) (k : R) : Option (L × R) × BM L R :=
  let m := upperBoundT b.cmpR Prod.snd k b.rtree
  (m.1, ⟨b.cmpL, b.cmpR, b.ltree, m.2, b.sz⟩)

/-- `bimap::insert(left, right)` with the two fresh priorities `yl`, `yr`
that the new node's two `set_element_base` subobjects draw from `rand()`:
if `find_left(left) == end_left() && find_right(right) == end_right()`
(short-circuit: the right lookup runs only when the left one missed), a
single entry is created, inserted into both indices, `size_` is
incremented, and its left position is returned; otherwise nothing is
inserted and `end_left()` is returned. -/
def insertB (b : BM L R) (lv : L) (rv : R) (yl yr : Nat) : Option (L × R) × BM L R :=
  let fl := findLeftB b lv
  match fl.1 with
  | some _ => ((none : Option (L × R)), fl.2)
  | none =>
    let fr := findRightB fl.2 rv
    match fr.1 with
    | some _ => ((none : Option (L × R)), fr.2)
    | none =>
      let il := insertT fr.2.cmpL Prod.fst (lv, rv) yl fr.2.ltree
      let ir := insertT fr.2.cmpR Prod.snd (lv, rv) yr fr.2.rtree
      (some il.1, ⟨b.cmpL, b.cmpR, il.2, ir.2, fr.2.sz + 1⟩)

/-- `erase_left(it)` at the position of live entry `e` (the body of
`erase_range` for the one-element range `[it, next(it))`): the successor
is computed first, the entry is erased from both indices, `size_` is
decremented, and the successor position is returned. -/
def eraseLeftAtB (b : BM L R) (e : L × R) : Option (L × R) × BM L R :=
  (nextAfter (inorder b.ltree) e,
   ⟨b.cmpL, b.cmpR, eraseNode e b.ltree, eraseNode e b.rtree, b.sz - 1⟩)

/-- `erase_right(it)` at the position of live entry `e` (symmetric). -/
def eraseRightAtB (b : BM L R) (e : L × R) : Option (L × R) × BM L R :=
  (nextAfter (inorder b.rtree) e,
   ⟨b.cmpL, b.cmpR, eraseNode e b.ltree, eraseNode e b.rtree, b.sz - 1⟩)

/-- `erase_left(Left const&)`: look the key up; erase on hit and report
`true`, otherwise report `false`. -/
def eraseLeftKeyB (b : BM L R) (k : L) : Bool × BM L R :=
  let f := findLeftB b k
  match f.1 with
  | none => (false, f.2)
  | some e => (true, (eraseLeftAtB f.2 e).2)

/-- `erase_right(Right const&)` (symmetric). -/
def eraseRightKeyB (b : BM L R) (k : R) : Bool × BM L R :=
  let f := findRightB b k
  match f.1 with
  | none => (false, f.2)
  | some e => (true, (eraseRightAtB f.2 e).2)

/-- One step of `bimap::erase_range`: erase the current entry from both
indices and decrement `size_`, then continue with the precomputed
successor list. -/
def eraseEntriesB (b : BM L R) : List (L × R) → BM L R
  | [] => b
  | e :: rest =>
    eraseEntriesB ⟨b.cmpL, b.cmpR, eraseNode e b.ltree, eraseNode e b.rtree, b.sz - 1⟩ rest

/-- `erase_left(first, last)` for the valid left-index range whose
positions are the inorder slice `[i, j)`: because erasing an entry never
relocates the other entries, the loop visits exactly the entries of that
slice.  Returns `last` (the position after the erased span). -/
def eraseLeftRangeB (b : BM L R) (i j : Nat) : Option (L × R) × BM L R :=
  let es := ((inorder b.ltree).drop i).take (j - i)
  (((inorder b.ltree).drop j).head?, eraseEntriesB b es)

/-- `erase_right(first, last)` for the valid right-index range whose
positions are the inorder slice `[i, j)` of the right index. -/
def eraseRightRangeB (b : BM L R) (i j : Nat) : Option (L × R) × BM L R :=
  let es := ((inorder b.rtree).drop i).take (j - i)
  (((inorder b.rtree).drop j).head?, eraseEntriesB b es)

/-- `at_left(key)`: `find_left`, `throw std::out_of_range` on miss
(embedded as `none`), otherwise the right value of the found entry
(`*it.flip()`). -/
def atLeftB (b : BM L R) (k : L) : Option R × BM L R :=
  let f := findLeftB b k
  match f.1 with
  | none => ((none : Option R), f.2)
  | some e => (some e.2, f.2)

/-- `at_right(key)` (symmetric). -/
def atRightB (b : BM L R) (k : R) : Option L × BM L R :=
  let f := findRightB b k
  match f.1 with
  | none => ((none : Option L), f.2)
  | some e => (some e.1, f.2)

/-- `at_left_or_default(key)` with the default-constructed `Right()`
value `dR` and the priorities `yl`, `yr` of the possible insertion: on a
hit, return the paired right value; on a miss, `erase_right(Right())`
then `insert(key, Right())` and return the right value at the flipped
position of the result.  Dereferencing `end_left().flip()` (insert
failure) is undefined in C++; the model returns `none` there. -/
def atLeftOrDefaultB (b : BM L R) (k : L) (dR : R) (yl yr : Nat) : Option R × BM L R :=
  let f := findLeftB b k
  match f.1 with
  | some e => (some e.2, f.2)
  | none =>
    let er := eraseRightKeyB f.2 dR
    let ins := insertB er.2 k dR yl yr
    match ins.1 with
    | some e => (some e.2, ins.2)
    | none => ((none : Option R), ins.2)

/-- `at_right_or_default(key)` with the default-constructed `Left()`
value `dL`: on a miss, `erase_left(Left())` then `insert(Left(), key)`,
returning the left value at the returned (left) position directly. -/
def atRightOrDefaultB (b : BM L R) (k : R) (dL : L) (yl yr : Nat) : Option L × BM L R :=
  let f := findRightB b k
  match f.1 with
  | some e => (some e.1, f.2)
  | none =>
    let el := eraseLeftKeyB f.2 dL
    let ins := insertB el.2 dL k yl yr
    match ins.1 with
    | some e => (some e.1, ins.2)
    | none => ((none : Option L), ins.2)

/-- `empty()`: `size_ == 0`. -/
def emptyP (b : BM L R) : Bool := b.sz == 0

/-- `size()`: the stored counter `size_`. -/
def sizeB (b : BM L R) : Nat := b.sz

/-- The comparison loop of `operator==` walking `a`'s left iterators:
at each position both the left values and the (flipped) right values are
compared with `==`.  When `a` holds more entries than `b` the C++ loop
dereferences past `b`'s end — undefined behavior; the model returns
`false` there. -/
def eqWalk : List (L × R) → List (L × R) → Bool
  | [], _ => true
  | _ :: _, [] => false
  | a :: as, c :: cs => (a.1 = c.1 && a.2 = c.2) && eqWalk as cs

/-- `operator==(bimap, bimap)`: sizes first, then the pairwise walk over
the left-ascending sequences of both maps. -/
def bmBeq (a b : BM L R) : Bool :=
  a.sz == b.sz && eqWalk (inorder a.ltree) (inorder b.ltree)

/-- `swap(other)`: the two indices swap roots and the sizes are swapped;
the comparator objects stay with their instances.  Returns the new states
of (self, other). -/
def swapBM (a b : BM L R) : BM L R × BM L R :=
  (⟨a.cmpL, a.cmpR, b.ltree, b.rtree, b.sz⟩, ⟨b.cmpL, b.cmpR, a.ltree, a.rtree, a.sz⟩)

/-- The defaulted move constructor `bimap(bimap&&)`: each index's root is
taken over (the source's root is unlinked), but the scalar `size_` member
is merely copied, so the source keeps its old counter value.  Returns
(constructed target, moved-from source). -/
def moveConstructB (b : BM L R) : BM L R × BM L R :=
  (⟨b.cmpL, b.cmpR, b.ltree, b.rtree, b.sz⟩, ⟨b.cmpL, b.cmpR, .nil, .nil, b.sz⟩)

/-- The loop body of the copy constructor: walk the source's left index in
ascending order and `insert` each (left, right) pair into the fresh map;
`ys i` supplies the two priorities of the `i`-th insertion. -/
def copyLoop (ys : Nat → Nat × Nat) : Nat → BM L R → List (L × R) → BM L R
  | _, acc, [] => acc
  | i, acc, e :: rest =>
    copyLoop ys (i + 1) (insertB acc e.1 e.2 (ys i).1 (ys i).2).2 rest

/-- The copy constructor `bimap(bimap const&)`: the new instance is built
with **default-constructed** comparators `CompareLeft()` / `CompareRight()`
(embedded as the explicit arguments `dL`, `dR`), regardless of the
comparators the source was constructed with, and the source's pairs are
re-inserted in left-ascending order. -/
def copyConstructB (dL : L → L → Bool) (dR : R → R → Bool) (src : BM L R)
    (ys : Nat → Nat × Nat) : BM L R :=
  copyLoop ys 0 (emptyBM dL dR) (inorder src.ltree)

/-- Copy assignment `operator=(bimap const&)`: guarded by
`*this != other`; when the guard passes, a copy of `other` is built (with
default comparators `dL`, `dR`) and swapped into `*this`.  Returns the new
state of `*this`. -/
def copyAssignB (dL : L → L → Bool) (dR : R → R → Bool) (a b : BM L R)
    (ys : Nat → Nat × Nat) : BM L R :=
  if bmBeq a b then a
  else
    let tmp := copyConstructB dL dR b ys
    (swapBM a tmp).1

/-- Move assignment `operator=(bimap&&)`: guarded by `*this != other`;
when the guard passes, a temporary is move-constructed from `other` and
swapped into `*this`.  Returns the new states of (`*this`, `other`). -/
def moveAssignB (a b : BM L R) : BM L R × BM L R :=
  if bmBeq a b then (a, b)
  else
    let mc := moveConstructB b
    ((swapBM a mc.1).1, mc.2)

/-! ## Structural lemmas about the treap primitives -/

namespace Tree

variable {α β : Type}

theorem inorder_mergeT (a b : Tree α) :
    inorder (mergeT a b) = inorder a ++ inorder b := by
  induction a, b using mergeT.induct with
  | case1 t => simp [mergeT, inorder]
  | case2 la xa ya ra => simp [mergeT, inorder]
  | case3 la xa ya ra lb xb yb rb hy ih =>
    simp [mergeT, hy, inorder, ih]
  | case4 la xa ya ra lb xb yb rb hy ih =>
    simp [mergeT, hy, inorder, ih]

theorem inorder_splitT [DecidableEq β] (lt : β → β → Bool) (key : α → β) (v : β)
    (lower : Bool) (t : Tree α) :
    inorder (splitT lt key v lower t).1 ++ inorder (splitT lt key v lower t).2 =
      inorder t := by
  induction t with
  | nil => simp [splitT, inorder]
  | node l x y r ihl ihr =>
    by_cases h : splitPred lt v lower (key x) = true
    · rw [splitT, if_pos h]
      simp only [inorder]
      rw [← List.append_assoc, ihl]
    · rw [splitT, if_neg h]
      simp only [inorder]
      rw [List.append_assoc, List.cons_append, ihr]

theorem getMinT_eq_head (t : Tree α) : getMinT t = (inorder t).head? := by
  induction t with
  | nil => simp [getMinT, inorder]
  | node l x y r ihl ihr =>
    cases l with
    | nil => simp [getMinT, inorder]
    | node ll lx ly lr =>
      rw [getMinT, ihl]
      have : inorder (Tree.node ll lx ly lr) ≠ [] := by
        simp [inorder]
      simp [inorder, List.head?_append_of_ne_nil, this]

end Tree

/-! ## Lawful comparators

The spec requires each comparator to be a strict weak order; since the
source additionally compares values with `operator==` (genuine equality on
the embedded value types), the lawfulness we need is: a strict total order
whose incomparability coincides with equality. -/

/-- A comparator that is a strict total order compatible with `==`. -/
structure StrictCmp {β : Type} (lt : β → β → Bool) : Prop where
  irrefl : ∀ a, lt a a = false
  trans : ∀ a b c, lt a b = true → lt b c = true → lt a c = true
  total : ∀ a b : β, a ≠ b → lt a b = true ∨ lt b a = true

theorem StrictCmp.asymm {β : Type} {lt : β → β → Bool} (h : StrictCmp lt)
    {a b : β} (hab : lt a b = true) : lt b a = false := by
  by_contra hba
  have hba' : lt b a = true := by
    cases hlt : lt b a with
    | false => exact absurd hlt hba
    | true => rfl
  have := h.trans a b a hab hba'
  rw [h.irrefl a] at this
  exact Bool.false_ne_true this

theorem StrictCmp.ne_of_lt {β : Type} {lt : β → β → Bool} (h : StrictCmp lt)
    {a b : β} (hab : lt a b = true) : a ≠ b := by
  rintro rfl
  rw [h.irrefl a] at hab
  exact Bool.false_ne_true hab

theorem StrictCmp.not_lt_iff {β : Type} {lt : β → β → Bool} (h : StrictCmp lt)
    {a b : β} : lt a b = false ↔ (lt b a = true ∨ a = b) := by
  constructor
  · intro hab
    by_cases he : a = b
    · exact Or.inr he
    · rcases h.total a b he with h1 | h1
      · rw [h1] at hab; exact absurd hab (by simp)
      · exact Or.inl h1
  · rintro (h1 | rfl)
    · exact h.asymm h1
    · exact h.irrefl a

namespace Tree

variable {α β : Type}

theorem splitPred_up [DecidableEq β] {lt : β → β → Bool} (h : StrictCmp lt)
    {v : β} {lower : Bool} {a b : β} (hab : lt a b = true)
    (ha : splitPred lt v lower a = true) : splitPred lt v lower b = true := by
  cases lower with
  | false =>
    simp only [splitPred, Bool.not_false, Bool.true_and, Bool.false_and,
      Bool.or_false] at ha ⊢
    rcases Bool.or_eq_true_iff.mp ha with h1 | h1
    · exact Bool.or_eq_true_iff.mpr (Or.inl (h.trans v a b h1 hab))
    · have : v = a := of_decide_eq_true h1
      subst this
      exact Bool.or_eq_true_iff.mpr (Or.inl hab)
  | true =>
    simp only [splitPred, Bool.not_true, Bool.false_and, Bool.true_and,
      Bool.false_or] at ha ⊢
    exact h.trans v a b ha hab

theorem splitPred_down [DecidableEq β] {lt : β → β → Bool} (h : StrictCmp lt)
    {v : β} {lower : Bool} {a b : β} (hab : lt a b = true)
    (hb : splitPred lt v lower b = false) : splitPred lt v lower a = false := by
  cases ha : splitPred lt v lower a with
  | false => rfl
  | true => rw [splitPred_up h hab ha] at hb; exact absurd hb (by simp)

/-- Sorted (strictly increasing) inorder under `lt` on the projected key:
the externally observable ordering invariant of one index. -/
def SortedBy (lt : β → β → Bool) (key : α → β) (xs : List α) : Prop :=
  xs.Pairwise (fun a b => lt (key a) (key b) = true)

theorem sortedBy_inorder_node {lt : β → β → Bool} {key : α → β}
    {l r : Tree α} {x : α} {y : Nat}
    (h : SortedBy lt key (inorder (Tree.node l x y r))) :
    SortedBy lt key (inorder l) ∧ SortedBy lt key (inorder r) ∧
      (∀ e ∈ inorder l, lt (key e) (key x) = true) ∧
      (∀ e ∈ inorder r, lt (key x) (key e) = true) := by
  simp only [inorder, SortedBy, List.pairwise_append] at h
  obtain ⟨hl, hxr, hcross⟩ := h
  rw [List.pairwise_cons] at hxr
  exact ⟨hl, hxr.2, fun e he => hcross e he x (List.mem_cons_self _ _),
    fun e he => hxr.1 e he⟩

/-- In a BST (sorted inorder), `split` sends exactly the nodes satisfying
`splitPred` to the second part and the others to the first. -/
theorem splitT_pred [DecidableEq β] {lt : β → β → Bool} (hcmp : StrictCmp lt)
    (key : α → β) (v : β) (lower : Bool) (t : Tree α)
    (hs : SortedBy lt key (inorder t)) :
    (∀ e ∈ inorder (splitT lt key v lower t).1, splitPred lt v lower (key e) = false) ∧
      (∀ e ∈ inorder (splitT lt key v lower t).2, splitPred lt v lower (key e) = true) := by
  induction t with
  | nil => simp [splitT, inorder]
  | node l x y r ihl ihr =>
    obtain ⟨hsl, hsr, hlx, hxr⟩ := sortedBy_inorder_node hs
    by_cases h : splitPred lt v lower (key x) = true
    · rw [splitT, if_pos h]
      obtain ⟨ih1, ih2⟩ := ihl hsl
      refine ⟨ih1, ?_⟩
      intro e he
      simp only [inorder, List.mem_append, List.mem_cons] at he
      rcases he with he | he | he
      · exact ih2 e he
      · subst he; exact h
      · exact splitPred_up hcmp (hxr e he) h
    · have hpx : splitPred lt v lower (key x) = false := by
        cases hp : splitPred lt v lower (key x) with
        | false => rfl
        | true => exact absurd hp h
      rw [splitT, if_neg h]
      obtain ⟨ih1, ih2⟩ := ihr hsr
      refine ⟨?_, ih2⟩
      intro e he
      simp only [inorder, List.mem_append, List.mem_cons] at he
      rcases he with he | he | he
      · exact splitPred_down hcmp (hlx e he) hpx
      · subst he; exact hpx
      · exact ih1 e he

theorem inorder_eq_nil {t : Tree α} (h : inorder t = []) : t = Tree.nil := by
  cases t with
  | nil => rfl
  | node l x y r => simp [inorder] at h

theorem find?_append_of_forall_false {p : α → Bool} {l1 : List α} (l2 : List α)
    (h : ∀ e ∈ l1, p e = false) : (l1 ++ l2).find? p = l2.find? p := by
  induction l1 with
  | nil => simp
  | cons x xs ih =>
    have hx := h x (List.mem_cons_self _ _)
    simp only [List.cons_append, List.find?_cons, hx]
    exact ih fun e he => h e (List.mem_cons_of_mem _ he)

theorem find?_eq_head_of_forall_true {p : α → Bool} {l : List α}
    (h : ∀ e ∈ l, p e = true) : l.find? p = l.head? := by
  cases l with
  | nil => simp
  | cons x xs => simp [List.find?_cons, h x (List.mem_cons_self _ _)]

theorem find?_first_of_pairwise {Rel : α → α → Prop} {p : α → Bool}
    {xs : List α} {h e : α} (hs : xs.Pairwise Rel) (hf : xs.find? p = some h)
    (he : e ∈ xs) (hp : p e = true) : h = e ∨ Rel h e := by
  induction xs with
  | nil => simp at hf
  | cons x rest ih =>
    rw [List.pairwise_cons] at hs
    rw [List.find?_cons] at hf
    rcases List.mem_cons.mp he with rfl | he'
    · cases hpx : p e with
      | true => rw [hpx] at hf; exact Or.inl (Option.some.inj hf).symm
      | false => rw [hpx] at hp; exact absurd hp (by simp)
    · cases hpx : p x with
      | true =>
        rw [hpx] at hf
        obtain rfl := Option.some.inj hf
        exact Or.inr (hs.1 e he')
      | false =>
        rw [hpx] at hf
        exact ih hs.2 hf he'

/-- With a lawful comparator, a strictly sorted list has pairwise distinct
keys. -/
theorem sortedBy_nodup_keys {lt : β → β → Bool} {key : α → β} {xs : List α}
    (hcmp : StrictCmp lt) (hs : SortedBy lt key xs) : (xs.map key).Nodup := by
  rw [List.Nodup, List.pairwise_map]
  exact hs.imp fun h => hcmp.ne_of_lt h

theorem sortedBy_nodup {lt : β → β → Bool} {key : α → β} {xs : List α}
    (hcmp : StrictCmp lt) (hs : SortedBy lt key xs) : xs.Nodup :=
  (sortedBy_nodup_keys hcmp hs).of_map key

/-- `lower_bound` returns the first element whose key is not less than the
query (`end` when there is none) — claim C8's characterization. -/
theorem lowerBoundT_fst [DecidableEq β] {lt : β → β → Bool} {key : α → β}
    (hcmp : StrictCmp lt) {v : β} {t : Tree α} (hs : SortedBy lt key (inorder t)) :
    (lowerBoundT lt key v t).1 = (inorder t).find? (fun e => !(lt (key e) v)) := by
  have hsplit := inorder_splitT lt key v false t
  have hpred := splitT_pred hcmp key v false t hs
  have hiff : ∀ e : α, (!(lt (key e) v)) = splitPred lt v false (key e) := by
    intro e
    cases hle : lt (key e) v with
    | false =>
      rcases hcmp.not_lt_iff.mp hle with h1 | h1
      · simp [splitPred, h1]
      · simp [splitPred, h1]
    | true =>
      have h1 : lt v (key e) = false := hcmp.asymm hle
      have h2 : ¬(v = key e) := fun h => by
        subst h; rw [hcmp.irrefl] at hle; exact Bool.false_ne_true hle
      simp [splitPred, h1, h2]
  rw [lowerBoundT]
  simp only
  rw [getMinT_eq_head, ← hsplit]
  rw [find?_append_of_forall_false (inorder (splitT lt key v false t).2)
    (fun e he => by rw [hiff e, hpred.1 e he])]
  rw [find?_eq_head_of_forall_true (fun e he => by rw [hiff e]; exact hpred.2 e he)]

/-- The transient restructuring of `lower_bound` (split then merge back)
never changes the visited sequence. -/
theorem lowerBoundT_snd [DecidableEq β] (lt : β → β → Bool) (key : α → β)
    (v : β) (t : Tree α) :
    inorder (lowerBoundT lt key v t).2 = inorder t := by
  rw [lowerBoundT]
  simp only
  rw [inorder_mergeT, inorder_splitT]

theorem findT_snd [DecidableEq β] (lt : β → β → Bool) (key : α → β)
    (v : β) (t : Tree α) :
    inorder (findT lt key v t).2 = inorder t := by
  rw [findT]
  cases h : (lowerBoundT lt key v t).1 with
  | none => simpa using lowerBoundT_snd lt key v t
  | some e => simpa [h] using lowerBoundT_snd lt key v t

theorem upperBoundT_snd [DecidableEq β] [DecidableEq α] (lt : β → β → Bool)
    (key : α → β) (v : β) (t : Tree α) :
    inorder (upperBoundT lt key v t).2 = inorder t := by
  rw [upperBoundT]
  cases h : (lowerBoundT lt key v t).1 with
  | none => simpa using lowerBoundT_snd lt key v t
  | some e => simpa [h] using lowerBoundT_snd lt key v t

/-- `set::find` hits exactly the member whose key equals the query. -/
theorem findT_fst_some_iff [DecidableEq β] {lt : β → β → Bool} {key : α → β}
    (hcmp : StrictCmp lt) {v : β} {t : Tree α} (hs : SortedBy lt key (inorder t))
    {e : α} :
    (findT lt key v t).1 = some e ↔ e ∈ inorder t ∧ key e = v := by
  constructor
  · intro h
    rw [findT] at h
    cases hlb : (lowerBoundT lt key v t).1 with
    | none => rw [hlb] at h; simp at h
    | some f =>
      rw [hlb] at h
      simp only at h
      by_cases hk : key f = v
      · rw [if_pos hk] at h
        obtain rfl := Option.some.inj h
        rw [lowerBoundT_fst hcmp hs] at hlb
        exact ⟨List.mem_of_find?_eq_some hlb, hk⟩
      · rw [if_neg hk] at h; simp at h
  · rintro ⟨he, hk⟩
    have hp : (fun a => !(lt (key a) v)) e = true := by
      have : lt (key e) v = false := by rw [hk]; exact hcmp.irrefl v
      simp [this]
    have hex : ((inorder t).find? (fun a => !(lt (key a) v))).isSome := by
      rw [List.find?_isSome]
      exact ⟨e, he, hp⟩
    obtain ⟨f, hf⟩ := Option.isSome_iff_exists.mp hex
    have hfp : (!(lt (key f) v)) = true := by simpa using List.find?_some hf
    have hfirst := find?_first_of_pairwise hs hf he hp
    have hkf : key f = v := by
      rcases hcmp.not_lt_iff.mp (by simpa using hfp) with h1 | h1
      · exfalso
        rcases hfirst with rfl | hlt
        · rw [hk] at h1; rw [hcmp.irrefl] at h1; exact Bool.false_ne_true h1
        · have := hcmp.trans v (key f) (key e) h1 hlt
          rw [hk, hcmp.irrefl] at this
          exact Bool.false_ne_true this
      · exact h1
    have : f = e := by
      rcases hfirst with rfl | hlt
      · rfl
      · exfalso
        rw [hkf, ← hk, hcmp.irrefl] at hlt
        exact Bool.false_ne_true hlt
    subst this
    rw [findT, lowerBoundT_fst hcmp hs, hf]
    simp [hkf]

theorem findT_fst_none_iff [DecidableEq β] {lt : β → β → Bool} {key : α → β}
    (hcmp : StrictCmp lt) {v : β} {t : Tree α} (hs : SortedBy lt key (inorder t)) :
    (findT lt key v t).1 = none ↔ ∀ e ∈ inorder t, key e ≠ v := by
  constructor
  · intro h e he hk
    rw [(findT_fst_some_iff hcmp hs).mpr ⟨he, hk⟩] at h
    exact Option.noConfusion h
  · intro h
    cases hf : (findT lt key v t).1 with
    | none => rfl
    | some e =>
      obtain ⟨he, hk⟩ := (findT_fst_some_iff hcmp hs).mp hf
      exact absurd hk (h e he)

/-- `set::insert` of a value whose key is absent: the new inorder sequence
is the old one with the new element placed at its sorted position, and the
returned iterator is the new node. -/
theorem insertT_spec [DecidableEq β] {lt : β → β → Bool} {key : α → β}
    (hcmp : StrictCmp lt) {x : α} {y : Nat} {t : Tree α}
    (hs : SortedBy lt key (inorder t))
    (habs : ∀ e ∈ inorder t, key e ≠ key x) :
    (insertT lt key x y t).1 = x ∧
      ∃ l1 l2, inorder t = l1 ++ l2 ∧
        inorder (insertT lt key x y t).2 = l1 ++ x :: l2 ∧
        (∀ e ∈ l1, lt (key e) (key x) = true) ∧
        (∀ e ∈ l2, lt (key x) (key e) = true) := by
  have hsplit := inorder_splitT lt key (key x) false t
  have hpred := splitT_pred hcmp key (key x) false t hs
  have hs2 : SortedBy lt key (inorder (splitT lt key (key x) false t).2) := by
    rw [SortedBy] at hs ⊢
    rw [← hsplit] at hs
    exact (List.pairwise_append.mp hs).2.1
  have hpred1 := splitT_pred hcmp key (key x) true (splitT lt key (key x) false t).2 hs2
  have hsplit1 := inorder_splitT lt key (key x) true (splitT lt key (key x) false t).2
  have hnil :
      (splitT lt key (key x) true (splitT lt key (key x) false t).2).1 = Tree.nil := by
    apply inorder_eq_nil
    by_contra hne
    obtain ⟨e, he⟩ := List.exists_mem_of_ne_nil _ hne
    have hin2 : e ∈ inorder (splitT lt key (key x) false t).2 := by
      rw [← hsplit1]
      exact List.mem_append_left _ he
    have hint : e ∈ inorder t := by
      rw [← hsplit]
      exact List.mem_append_right _ hin2
    have hup : splitPred lt (key x) false (key e) = true := hpred.2 e hin2
    have hlow : splitPred lt (key x) true (key e) = false := (hpred1.1) e he
    simp only [splitPred, Bool.not_false, Bool.true_and, Bool.false_and,
      Bool.or_false] at hup
    simp only [splitPred, Bool.not_true, Bool.false_and, Bool.true_and,
      Bool.false_or] at hlow
    rw [hlow, Bool.false_or] at hup
    exact habs e hint (of_decide_eq_true hup).symm
  refine ⟨?_, inorder (splitT lt key (key x) false t).1,
    inorder (splitT lt key (key x) false t).2, hsplit.symm, ?_, ?_, ?_⟩
  · rw [insertT]
    simp only [hnil]
  · rw [insertT]
    simp only [hnil]
    rw [inorder_mergeT, inorder_mergeT]
    have h12 : inorder (splitT lt key (key x) true (splitT lt key (key x) false t).2).2 =
        inorder (splitT lt key (key x) false t).2 := by
      rw [← hsplit1, hnil]
      simp [inorder]
    rw [h12, inorder]
    simp [inorder]
  · intro e he
    have hp := hpred.1 e he
    simp only [splitPred, Bool.not_false, Bool.true_and, Bool.false_and,
      Bool.or_false, Bool.or_eq_false_iff] at hp
    have hne : key e ≠ key x := fun h => by
      rw [h] at hp
      simp at hp
    rcases hcmp.total (key e) (key x) hne with h1 | h1
    · exact h1
    · rw [h1] at hp; simp at hp
  · intro e he
    have hp := hpred.2 e he
    have hint : e ∈ inorder t := by
      rw [← hsplit]
      exact List.mem_append_right _ he
    simp only [splitPred, Bool.not_false, Bool.true_and, Bool.false_and,
      Bool.or_false, Bool.or_eq_true_iff] at hp
    rcases hp with h1 | h1
    · exact h1
    · exact absurd (of_decide_eq_true h1).symm (habs e hint)

/-- Pointer-erase of the node holding `e` in a duplicate-free tree: the
inorder sequence loses exactly `e`. -/
theorem eraseNode_inorder [DecidableEq α] {t : Tree α} (hnd : (inorder t).Nodup)
    (e : α) :
    inorder (eraseNode e t) = (inorder t).filter (fun a => decide (a ≠ e)) := by
  induction t with
  | nil => simp [eraseNode, inorder]
  | node l x y r ihl ihr =>
    simp only [inorder, List.nodup_append] at hnd
    obtain ⟨hndl, hndxr, hdisj⟩ := hnd
    rw [List.nodup_cons] at hndxr
    by_cases hx : x = e
    · subst hx
      rw [eraseNode, if_pos rfl, inorder_mergeT]
      simp only [inorder, List.filter_append, List.filter_cons]
      have h1 : (inorder l).filter (fun a => decide (a ≠ x)) = inorder l := by
        rw [List.filter_eq_self]
        intro a ha
        exact decide_eq_true (fun h => hdisj ha (by subst h; exact List.mem_cons_self _ _))
      have h2 : (inorder r).filter (fun a => decide (a ≠ x)) = inorder r := by
        rw [List.filter_eq_self]
        intro a ha
        exact decide_eq_true (fun h => hndxr.1 (by rw [← h]; exact ha))
      rw [h1, h2]
      simp
    · rw [eraseNode, if_neg hx]
      simp only [inorder, List.filter_append, List.filter_cons]
      rw [ihl hndl, ihr hndxr.2]
      have : decide (x ≠ e) = true := decide_eq_true hx
      rw [this]
      simp

theorem insertT_sorted [DecidableEq β] {lt : β → β → Bool} {key : α → β}
    (hcmp : StrictCmp lt) {x : α} {y : Nat} {t : Tree α}
    (hs : SortedBy lt key (inorder t))
    (habs : ∀ e ∈ inorder t, key e ≠ key x) :
    SortedBy lt key (inorder (insertT lt key x y t).2) := by
  obtain ⟨-, l1, l2, ht, hres, h1, h2⟩ := insertT_spec hcmp hs habs
  rw [hres]
  rw [ht, SortedBy, List.pairwise_append] at hs
  obtain ⟨hp1, hp2, hcross⟩ := hs
  rw [SortedBy, List.pairwise_append]
  refine ⟨hp1, ?_, ?_⟩
  · rw [List.pairwise_cons]
    exact ⟨h2, hp2⟩
  · intro a ha b hb
    rcases List.mem_cons.mp hb with rfl | hb'
    · exact h1 a ha
    · exact hcross a ha b hb'

theorem insertT_perm [DecidableEq β] {lt : β → β → Bool} {key : α → β}
    (hcmp : StrictCmp lt) {x : α} {y : Nat} {t : Tree α}
    (hs : SortedBy lt key (inorder t))
    (habs : ∀ e ∈ inorder t, key e ≠ key x) :
    (inorder (insertT lt key x y t).2).Perm (x :: inorder t) := by
  obtain ⟨-, l1, l2, ht, hres, -, -⟩ := insertT_spec hcmp hs habs
  rw [hres, ht]
  exact List.perm_middle

end Tree

/-! ## The bimap invariant and operation-level lemmas -/

open Tree

variable {L R : Type} [DecidableEq L] [DecidableEq R]

/-- The ordering/uniqueness part of the bimap invariant: both indices are
strictly sorted under their comparators and hold the same entries. -/
structure Inv0 (b : BM L R) : Prop where
  ordL : SortedBy b.cmpL Prod.fst (inorder b.ltree)
  ordR : SortedBy b.cmpR Prod.snd (inorder b.rtree)
  perm : (inorder b.ltree).Perm (inorder b.rtree)

/-- The full invariant: additionally `size_` equals the number of live
entries. -/
structure Inv (b : BM L R) extends Inv0 b : Prop where
  szEq : b.sz = (inorder b.ltree).length

theorem findLeftB_ltree (b : BM L R) (k : L) :
    inorder (findLeftB b k).2.ltree = inorder b.ltree :=
  findT_snd b.cmpL Prod.fst k b.ltree

theorem findLeftB_rest (b : BM L R) (k : L) :
    (findLeftB b k).2.rtree = b.rtree ∧ (findLeftB b k).2.sz = b.sz ∧
      (findLeftB b k).2.cmpL = b.cmpL ∧ (findLeftB b k).2.cmpR = b.cmpR :=
  ⟨rfl, rfl, rfl, rfl⟩

theorem findRightB_rtree (b : BM L R) (k : R) :
    inorder (findRightB b k).2.rtree = inorder b.rtree :=
  findT_snd b.cmpR Prod.snd k b.rtree

theorem findRightB_rest (b : BM L R) (k : R) :
    (findRightB b k).2.ltree = b.ltree ∧ (findRightB b k).2.sz = b.sz ∧
      (findRightB b k).2.cmpL = b.cmpL ∧ (findRightB b k).2.cmpR = b.cmpR :=
  ⟨rfl, rfl, rfl, rfl⟩

theorem findLeftB_fst_some_iff {b : BM L R} (hcmp : StrictCmp b.cmpL)
    (h : Inv0 b) {k : L} {e : L × R} :
    (findLeftB b k).1 = some e ↔ e ∈ inorder b.ltree ∧ e.1 = k :=
  findT_fst_some_iff hcmp h.ordL

theorem findLeftB_fst_none_iff {b : BM L R} (hcmp : StrictCmp b.cmpL)
    (h : Inv0 b) {k : L} :
    (findLeftB b k).1 = none ↔ ∀ e ∈ inorder b.ltree, e.1 ≠ k :=
  findT_fst_none_iff hcmp h.ordL

theorem findRightB_fst_some_iff {b : BM L R} (hcmp : StrictCmp b.cmpR)
    (h : Inv0 b) {k : R} {e : L × R} :
    (findRightB b k).1 = some e ↔ e ∈ inorder b.rtree ∧ e.2 = k :=
  findT_fst_some_iff hcmp h.ordR

theorem findRightB_fst_none_iff {b : BM L R} (hcmp : StrictCmp b.cmpR)
    (h : Inv0 b) {k : R} :
    (findRightB b k).1 = none ↔ ∀ e ∈ inorder b.rtree, e.2 ≠ k :=
  findT_fst_none_iff hcmp h.ordR

/-- The find operations preserve the invariant (they only restructure
shape, never the visited sequences). -/
theorem Inv0.findLeft0 {b : BM L R} (h : Inv0 b) (k : L) : Inv0 (findLeftB b k).2 := by
  refine ⟨?_, ?_, ?_⟩ <;>
    simp only [findLeftB, findT_snd] <;>
    [exact h.ordL; exact h.ordR; exact h.perm]

theorem Inv.findLeft {b : BM L R} (h : Inv b) (k : L) : Inv (findLeftB b k).2 := by
  refine ⟨h.toInv0.findLeft0 k, ?_⟩
  simp only [findLeftB, findT_snd]
  exact h.szEq

theorem Inv0.findRight0 {b : BM L R} (h : Inv0 b) (k : R) : Inv0 (findRightB b k).2 := by
  refine ⟨?_, ?_, ?_⟩ <;>
    simp only [findRightB, findT_snd] <;>
    [exact h.ordL; exact h.ordR; exact h.perm]

theorem Inv.findRight {b : BM L R} (h : Inv b) (k : R) : Inv (findRightB b k).2 := by
  refine ⟨h.toInv0.findRight0 k, ?_⟩
  simp only [findRightB, findT_snd]
  exact h.szEq

theorem findLeftB_snd_ltree (b : BM L R) (k : L) :
    (findLeftB b k).2.ltree = (findT b.cmpL Prod.fst k b.ltree).2 := rfl

theorem findLeftB_snd_rtree (b : BM L R) (k : L) : (findLeftB b k).2.rtree = b.rtree := rfl

theorem findLeftB_snd_sz (b : BM L R) (k : L) : (findLeftB b k).2.sz = b.sz := rfl

theorem findLeftB_snd_cmpL (b : BM L R) (k : L) : (findLeftB b k).2.cmpL = b.cmpL := rfl

theorem findLeftB_snd_cmpR (b : BM L R) (k : L) : (findLeftB b k).2.cmpR = b.cmpR := rfl

theorem findRightB_snd_rtree (b : BM L R) (k : R) :
    (findRightB b k).2.rtree = (findT b.cmpR Prod.snd k b.rtree).2 := rfl

theorem findRightB_snd_ltree (b : BM L R) (k : R) : (findRightB b k).2.ltree = b.ltree := rfl

theorem findRightB_snd_sz (b : BM L R) (k : R) : (findRightB b k).2.sz = b.sz := rfl

theorem findRightB_snd_cmpL (b : BM L R) (k : R) : (findRightB b k).2.cmpL = b.cmpL := rfl

theorem findRightB_snd_cmpR (b : BM L R) (k : R) : (findRightB b k).2.cmpR = b.cmpR := rfl

/-- `insert` when the left value is already present: nothing observable
changes and `end_left()` is returned. -/
theorem insertB_conflict_left {b : BM L R} (hL : StrictCmp b.cmpL) (h : Inv0 b)
    (lv : L) (rv : R) (yl yr : Nat) (hc : ∃ e ∈ inorder b.ltree, e.1 = lv) :
    (insertB b lv rv yl yr).1 = endL ∧
      inorder (insertB b lv rv yl yr).2.ltree = inorder b.ltree ∧
      inorder (insertB b lv rv yl yr).2.rtree = inorder b.rtree ∧
      (insertB b lv rv yl yr).2.sz = b.sz ∧
      (insertB b lv rv yl yr).2.cmpL = b.cmpL ∧
      (insertB b lv rv yl yr).2.cmpR = b.cmpR := by
  obtain ⟨e, he, hk⟩ := hc
  have hfl : (findLeftB b lv).1 = some e :=
    (findLeftB_fst_some_iff hL h).mpr ⟨he, hk⟩
  simp only [insertB, hfl]
  exact ⟨rfl, findLeftB_ltree b lv, rfl, rfl, rfl, rfl⟩

/-- `insert` when the left value is absent but the right value is present:
nothing observable changes and `end_left()` is returned. -/
theorem insertB_conflict_right {b : BM L R} (hL : StrictCmp b.cmpL)
    (hR : StrictCmp b.cmpR) (h : Inv0 b) (lv : L) (rv : R) (yl yr : Nat)
    (habsL : ∀ e ∈ inorder b.ltree, e.1 ≠ lv)
    (hc : ∃ e ∈ inorder b.rtree, e.2 = rv) :
    (insertB b lv rv yl yr).1 = endL ∧
      inorder (insertB b lv rv yl yr).2.ltree = inorder b.ltree ∧
      inorder (insertB b lv rv yl yr).2.rtree = inorder b.rtree ∧
      (insertB b lv rv yl yr).2.sz = b.sz ∧
      (insertB b lv rv yl yr).2.cmpL = b.cmpL ∧
      (insertB b lv rv yl yr).2.cmpR = b.cmpR := by
  have hfl : (findLeftB b lv).1 = none :=
    (findLeftB_fst_none_iff hL h).mpr habsL
  obtain ⟨e, he, hk⟩ := hc
  have h1 : Inv0 (findLeftB b lv).2 := h.findLeft0 lv
  have he1 : e ∈ inorder (findLeftB b lv).2.rtree := he
  have hfr : (findRightB (findLeftB b lv).2 rv).1 = some e :=
    (findRightB_fst_some_iff (b := (findLeftB b lv).2) hR h1).mpr ⟨he1, hk⟩
  simp only [insertB, hfl, hfr]
  refine ⟨rfl, ?_, ?_, rfl, rfl, rfl⟩
  · rw [(findRightB_rest (findLeftB b lv).2 rv).1]
    exact findLeftB_ltree b lv
  · exact findRightB_rtree (findLeftB b lv).2 rv

/-- `insert` when neither value is present: one entry appears in both
indices at its sorted position, `size_` grows by one, and the left
position of the new entry is returned. -/
theorem insertB_success {b : BM L R} (hL : StrictCmp b.cmpL)
    (hR : StrictCmp b.cmpR) (h : Inv0 b) (lv : L) (rv : R) (yl yr : Nat)
    (habsL : ∀ e ∈ inorder b.ltree, e.1 ≠ lv)
    (habsR : ∀ e ∈ inorder b.rtree, e.2 ≠ rv) :
    (insertB b lv rv yl yr).1 = some (lv, rv) ∧
      (inorder (insertB b lv rv yl yr).2.ltree).Perm ((lv, rv) :: inorder b.ltree) ∧
      (inorder (insertB b lv rv yl yr).2.rtree).Perm ((lv, rv) :: inorder b.rtree) ∧
      (insertB b lv rv yl yr).2.sz = b.sz + 1 ∧
      (insertB b lv rv yl yr).2.cmpL = b.cmpL ∧
      (insertB b lv rv yl yr).2.cmpR = b.cmpR ∧
      Inv0 (insertB b lv rv yl yr).2 := by
  have hfl : (findLeftB b lv).1 = none :=
    (findLeftB_fst_none_iff hL h).mpr habsL
  have h1 : Inv0 (findLeftB b lv).2 := h.findLeft0 lv
  have hfr : (findRightB (findLeftB b lv).2 rv).1 = none :=
    (findRightB_fst_none_iff (b := (findLeftB b lv).2) hR h1).mpr habsR
  have hltF : inorder (findT b.cmpL Prod.fst lv b.ltree).2 = inorder b.ltree :=
    findT_snd b.cmpL Prod.fst lv b.ltree
  have hrtF : inorder (findT b.cmpR Prod.snd rv b.rtree).2 = inorder b.rtree :=
    findT_snd b.cmpR Prod.snd rv b.rtree
  have hsL : SortedBy b.cmpL Prod.fst (inorder (findT b.cmpL Prod.fst lv b.ltree).2) := by
    rw [SortedBy, hltF]; exact h.ordL
  have hsR : SortedBy b.cmpR Prod.snd (inorder (findT b.cmpR Prod.snd rv b.rtree).2) := by
    rw [SortedBy, hrtF]; exact h.ordR
  have habsL2 : ∀ e ∈ inorder (findT b.cmpL Prod.fst lv b.ltree).2,
      Prod.fst e ≠ Prod.fst ((lv, rv) : L × R) := by
    rw [hltF]; exact habsL
  have habsR2 : ∀ e ∈ inorder (findT b.cmpR Prod.snd rv b.rtree).2,
      Prod.snd e ≠ Prod.snd ((lv, rv) : L × R) := by
    rw [hrtF]; exact habsR
  have hLspec := insertT_spec (x := ((lv, rv) : L × R)) (y := yl) hL hsL habsL2
  have hLsort := insertT_sorted (x := ((lv, rv) : L × R)) (y := yl) hL hsL habsL2
  have hRsort := insertT_sorted (x := ((lv, rv) : L × R)) (y := yr) hR hsR habsR2
  have hLperm := insertT_perm (x := ((lv, rv) : L × R)) (y := yl) hL hsL habsL2
  have hRperm := insertT_perm (x := ((lv, rv) : L × R)) (y := yr) hR hsR habsR2
  rw [hltF] at hLperm
  rw [hrtF] at hRperm
  simp only [insertB, hfl, hfr, findLeftB_snd_ltree, findLeftB_snd_rtree,
    findLeftB_snd_sz, findLeftB_snd_cmpL, findLeftB_snd_cmpR,
    findRightB_snd_ltree, findRightB_snd_rtree, findRightB_snd_sz,
    findRightB_snd_cmpL, findRightB_snd_cmpR]
  refine ⟨by rw [hLspec.1], hLperm, hRperm, by trivial, by trivial, by trivial, ?_⟩
  refine ⟨hLsort, hRsort, ?_⟩
  have hmid : ((lv, rv) :: inorder b.ltree).Perm ((lv, rv) :: inorder b.rtree) :=
    h.perm.cons _
  have hLperm2 := insertT_perm (x := ((lv, rv) : L × R)) (y := yl) hL hsL habsL2
  have hRperm2 := insertT_perm (x := ((lv, rv) : L × R)) (y := yr) hR hsR habsR2
  rw [hltF] at hLperm2
  rw [hrtF] at hRperm2
  exact hLperm2.trans (hmid.trans hRperm2.symm)

/-- Removing one element from a duplicate-free list by filtering shortens
it by exactly one. -/
theorem length_filter_ne {α : Type} [DecidableEq α] {l : List α} (hnd : l.Nodup)
    {e : α} (he : e ∈ l) :
    (l.filter (fun a => decide (a ≠ e))).length = l.length - 1 := by
  induction l with
  | nil => simp at he
  | cons x xs ih =>
    rw [List.nodup_cons] at hnd
    by_cases hx : x = e
    · subst hx
      have hxs : xs.filter (fun a => decide (a ≠ x)) = xs := by
        rw [List.filter_eq_self]
        intro a ha
        exact decide_eq_true fun hax => hnd.1 (hax ▸ ha)
      have hdx : (decide (x ≠ x)) = false := by simp
      rw [List.filter_cons, hdx]
      simp only [Bool.false_eq_true, if_false, hxs, List.length_cons]
      omega
    · have hexs : e ∈ xs := by
        rcases List.mem_cons.mp he with rfl | h'
        · exact absurd rfl hx
        · exact h'
      have hpos : 0 < xs.length := List.length_pos_of_mem hexs
      rw [List.filter_cons]
      have : decide (x ≠ e) = true := decide_eq_true hx
      rw [this]
      simp only [if_true, List.length_cons, ih hnd.2 hexs]
      omega

/-- Observable effect of `erase` at the position of entry `e`: the entry
disappears from both indices and `size_` drops by one.  (The two erase
overloads produce the same state; they differ only in the returned
successor position.) -/
theorem eraseLeftAtB_obs {b : BM L R} (hL : StrictCmp b.cmpL) (hR : StrictCmp b.cmpR)
    (h : Inv0 b) (e : L × R) :
    inorder (eraseLeftAtB b e).2.ltree =
        (inorder b.ltree).filter (fun a => decide (a ≠ e)) ∧
      inorder (eraseLeftAtB b e).2.rtree =
        (inorder b.rtree).filter (fun a => decide (a ≠ e)) ∧
      (eraseLeftAtB b e).2.sz = b.sz - 1 ∧
      (eraseLeftAtB b e).2.cmpL = b.cmpL ∧ (eraseLeftAtB b e).2.cmpR = b.cmpR :=
  ⟨eraseNode_inorder (sortedBy_nodup hL h.ordL) e,
   eraseNode_inorder (sortedBy_nodup hR h.ordR) e, rfl, rfl, rfl⟩

theorem eraseRightAtB_snd (b : BM L R) (e : L × R) :
    (eraseRightAtB b e).2 = (eraseLeftAtB b e).2 := rfl

/-- Invariant preservation of single-entry erase. -/
theorem Inv.eraseLeftAt {b : BM L R} (hL : StrictCmp b.cmpL) (hR : StrictCmp b.cmpR)
    (h : Inv b) {e : L × R} (he : e ∈ inorder b.ltree) :
    Inv (eraseLeftAtB b e).2 := by
  obtain ⟨hlt, hrt, hsz, hc1, hc2⟩ := eraseLeftAtB_obs hL hR h.toInv0 e
  refine ⟨⟨?_, ?_, ?_⟩, ?_⟩
  · rw [SortedBy, hlt, hc1]
    exact h.ordL.sublist (List.filter_sublist _)
  · rw [SortedBy, hrt, hc2]
    exact h.ordR.sublist (List.filter_sublist _)
  · rw [hlt, hrt]
    exact h.perm.filter _
  · rw [hsz, hlt, length_filter_ne (sortedBy_nodup hL h.ordL) he, h.szEq]

/-- Invariant preservation of key-erase (either side, any outcome). -/
theorem Inv.eraseLeftKey {b : BM L R} (hL : StrictCmp b.cmpL) (hR : StrictCmp b.cmpR)
    (h : Inv b) (k : L) : Inv (eraseLeftKeyB b k).2 := by
  rw [eraseLeftKeyB]
  cases hf : (findLeftB b k).1 with
  | none => exact h.findLeft k
  | some e =>
    simp only
    have he : e ∈ inorder (findLeftB b k).2.ltree := by
      rw [findLeftB_ltree]
      exact ((findLeftB_fst_some_iff hL h.toInv0).mp hf).1
    exact Inv.eraseLeftAt (b := (findLeftB b k).2) hL hR (h.findLeft k) he

theorem Inv.eraseRightKey {b : BM L R} (hL : StrictCmp b.cmpL) (hR : StrictCmp b.cmpR)
    (h : Inv b) (k : R) : Inv (eraseRightKeyB b k).2 := by
  rw [eraseRightKeyB]
  cases hf : (findRightB b k).1 with
  | none => exact h.findRight k
  | some e =>
    simp only
    rw [eraseRightAtB_snd]
    have he : e ∈ inorder (findRightB b k).2.ltree := by
      rw [findRightB_snd_ltree]
      exact h.perm.mem_iff.mpr ((findRightB_fst_some_iff hR h.toInv0).mp hf).1
    exact Inv.eraseLeftAt (b := (findRightB b k).2) hL hR (h.findRight k) he

/-- Invariant preservation of the `erase_range` loop over any
duplicate-free list of live entries. -/
theorem Inv.eraseEntries {b : BM L R} (hL : StrictCmp b.cmpL) (hR : StrictCmp b.cmpR)
    (h : Inv b) {es : List (L × R)} (hnd : es.Nodup)
    (hsub : ∀ e ∈ es, e ∈ inorder b.ltree) : Inv (eraseEntriesB b es) := by
  induction es generalizing b with
  | nil => exact h
  | cons e rest ih =>
    rw [List.nodup_cons] at hnd
    rw [eraseEntriesB]
    have hobs := eraseLeftAtB_obs hL hR h.toInv0 e
    apply ih
    · exact hL
    · exact hR
    · exact Inv.eraseLeftAt hL hR h (hsub e (List.mem_cons_self _ _))
    · exact hnd.2
    · intro f hf
      show f ∈ inorder (eraseLeftAtB b e).2.ltree
      rw [hobs.1]
      exact List.mem_filter.mpr ⟨hsub f (List.mem_cons_of_mem _ hf),
        decide_eq_true fun hfe => hnd.1 (hfe ▸ hf)⟩

/-- Invariant preservation of `erase_left(first, last)` on a valid range. -/
theorem Inv.eraseLeftRange {b : BM L R} (hL : StrictCmp b.cmpL) (hR : StrictCmp b.cmpR)
    (h : Inv b) (i j : Nat) : Inv (eraseLeftRangeB b i j).2 := by
  rw [eraseLeftRangeB]
  have hsl : (((inorder b.ltree).drop i).take (j - i)).Sublist (inorder b.ltree) :=
    (List.take_sublist _ _).trans (List.drop_sublist _ _)
  exact Inv.eraseEntries hL hR h
    ((sortedBy_nodup hL h.ordL).sublist hsl) (fun e he => hsl.mem he)

/-- Full-invariant preservation of `insert` (any outcome). -/
theorem Inv.insertB {b : BM L R} (hL : StrictCmp b.cmpL) (hR : StrictCmp b.cmpR)
    (h : Inv b) (lv : L) (rv : R) (yl yr : Nat) : Inv (insertB b lv rv yl yr).2 := by
  by_cases hcl : ∃ e ∈ inorder b.ltree, e.1 = lv
  · obtain ⟨-, hlt, hrt, hsz, hc1, hc2⟩ := insertB_conflict_left hL h.toInv0 lv rv yl yr hcl
    refine ⟨⟨?_, ?_, ?_⟩, ?_⟩
    · rw [SortedBy, hlt, hc1]; exact h.ordL
    · rw [SortedBy, hrt, hc2]; exact h.ordR
    · rw [hlt, hrt]; exact h.perm
    · rw [hsz, hlt]; exact h.szEq
  · push_neg at hcl
    by_cases hcr : ∃ e ∈ inorder b.rtree, e.2 = rv
    · obtain ⟨-, hlt, hrt, hsz, hc1, hc2⟩ := insertB_conflict_right hL hR h.toInv0 lv rv yl yr hcl hcr
      refine ⟨⟨?_, ?_, ?_⟩, ?_⟩
      · rw [SortedBy, hlt, hc1]; exact h.ordL
      · rw [SortedBy, hrt, hc2]; exact h.ordR
      · rw [hlt, hrt]; exact h.perm
      · rw [hsz, hlt]; exact h.szEq
    · push_neg at hcr
      obtain ⟨-, hpl, hpr, hsz, hc1, hc2, hinv0⟩ :=
        insertB_success hL hR h.toInv0 lv rv yl yr hcl hcr
      refine ⟨hinv0, ?_⟩
      rw [hsz, hpl.length_eq]
      simp [h.szEq]

/-! ## Comparator preservation: every operation keeps the comparator
objects of the instance it mutates -/

theorem insertB_cmpL (b : BM L R) (lv : L) (rv : R) (yl yr : Nat) :
    (insertB b lv rv yl yr).2.cmpL = b.cmpL := by
  simp only [insertB]
  cases h1 : (findLeftB b lv).1 with
  | some e => rfl
  | none =>
    cases h2 : (findRightB (findLeftB b lv).2 rv).1 with
    | some e => rfl
    | none => rfl

theorem insertB_cmpR (b : BM L R) (lv : L) (rv : R) (yl yr : Nat) :
    (insertB b lv rv yl yr).2.cmpR = b.cmpR := by
  simp only [insertB]
  cases h1 : (findLeftB b lv).1 with
  | some e => rfl
  | none =>
    cases h2 : (findRightB (findLeftB b lv).2 rv).1 with
    | some e => rfl
    | none => rfl

theorem eraseLeftKeyB_cmpL (b : BM L R) (k : L) :
    (eraseLeftKeyB b k).2.cmpL = b.cmpL := by
  simp only [eraseLeftKeyB]
  cases hOn : (findLeftB b k).1 with
  | some e => rfl
  | none => rfl

theorem eraseLeftKeyB_cmpR (b : BM L R) (k : L) :
    (eraseLeftKeyB b k).2.cmpR = b.cmpR := by
  simp only [eraseLeftKeyB]
  cases h : (findLeftB b k).1 with
  | some e => rfl
  | none => rfl

theorem eraseRightKeyB_cmpL (b : BM L R) (k : R) :
    (eraseRightKeyB b k).2.cmpL = b.cmpL := by
  simp only [eraseRightKeyB]
  cases h : (findRightB b k).1 with
  | some e => rfl
  | none => rfl

theorem eraseRightKeyB_cmpR (b : BM L R) (k : R) :
    (eraseRightKeyB b k).2.cmpR = b.cmpR := by
  simp only [eraseRightKeyB]
  cases h : (findRightB b k).1 with
  | some e => rfl
  | none => rfl

theorem eraseEntriesB_cmpL (b : BM L R) (es : List (L × R)) :
    (eraseEntriesB b es).cmpL = b.cmpL := by
  induction es generalizing b with
  | nil => rfl
  | cons e rest ih => rw [eraseEntriesB]; exact ih _

theorem eraseEntriesB_cmpR (b : BM L R) (es : List (L × R)) :
    (eraseEntriesB b es).cmpR = b.cmpR := by
  induction es generalizing b with
  | nil => rfl
  | cons e rest ih => rw [eraseEntriesB]; exact ih _

theorem atLeftOrDefaultB_cmpL (b : BM L R) (k : L) (dR : R) (yl yr : Nat) :
    (atLeftOrDefaultB b k dR yl yr).2.cmpL = b.cmpL := by
  simp only [atLeftOrDefaultB]
  cases h1 : (findLeftB b k).1 with
  | some e => rfl
  | none =>
    cases h2 : (insertB (eraseRightKeyB (findLeftB b k).2 dR).2 k dR yl yr).1 with
    | some e =>
      simp only
      rw [insertB_cmpL, eraseRightKeyB_cmpL]
      rfl
    | none =>
      simp only
      rw [insertB_cmpL, eraseRightKeyB_cmpL]
      rfl

theorem atLeftOrDefaultB_cmpR (b : BM L R) (k : L) (dR : R) (yl yr : Nat) :
    (atLeftOrDefaultB b k dR yl yr).2.cmpR = b.cmpR := by
  simp only [atLeftOrDefaultB]
  cases h1 : (findLeftB b k).1 with
  | some e => rfl
  | none =>
    cases h2 : (insertB (eraseRightKeyB (findLeftB b k).2 dR).2 k dR yl yr).1 with
    | some e =>
      simp only
      rw [insertB_cmpR, eraseRightKeyB_cmpR]
      rfl
    | none =>
      simp only
      rw [insertB_cmpR, eraseRightKeyB_cmpR]
      rfl

theorem atRightOrDefaultB_cmpL (b : BM L R) (k : R) (dL : L) (yl yr : Nat) :
    (atRightOrDefaultB b k dL yl yr).2.cmpL = b.cmpL := by
  simp only [atRightOrDefaultB]
  cases h1 : (findRightB b k).1 with
  | some e => rfl
  | none =>
    cases h2 : (insertB (eraseLeftKeyB (findRightB b k).2 dL).2 dL k yl yr).1 with
    | some e =>
      simp only
      rw [insertB_cmpL, eraseLeftKeyB_cmpL]
      rfl
    | none =>
      simp only
      rw [insertB_cmpL, eraseLeftKeyB_cmpL]
      rfl

theorem atRightOrDefaultB_cmpR (b : BM L R) (k : R) (dL : L) (yl yr : Nat) :
    (atRightOrDefaultB b k dL yl yr).2.cmpR = b.cmpR := by
  simp only [atRightOrDefaultB]
  cases h1 : (findRightB b k).1 with
  | some e => rfl
  | none =>
    cases h2 : (insertB (eraseLeftKeyB (findRightB b k).2 dL).2 dL k yl yr).1 with
    | some e =>
      simp only
      rw [insertB_cmpR, eraseLeftKeyB_cmpR]
      rfl
    | none =>
      simp only
      rw [insertB_cmpR, eraseLeftKeyB_cmpR]
      rfl

theorem copyLoop_cmpL (ys : Nat → Nat × Nat) (i : Nat) (acc : BM L R)
    (es : List (L × R)) : (copyLoop ys i acc es).cmpL = acc.cmpL := by
  induction es generalizing i acc with
  | nil => rfl
  | cons e rest ih => rw [copyLoop, ih, insertB_cmpL]

theorem copyLoop_cmpR (ys : Nat → Nat × Nat) (i : Nat) (acc : BM L R)
    (es : List (L × R)) : (copyLoop ys i acc es).cmpR = acc.cmpR := by
  induction es generalizing i acc with
  | nil => rfl
  | cons e rest ih => rw [copyLoop, ih, insertB_cmpR]

/-- The copy constructor's comparators are the default-constructed ones,
whatever the source's comparators were. -/
theorem copyConstructB_cmp (dL : L → L → Bool) (dR : R → R → Bool)
    (src : BM L R) (ys : Nat → Nat × Nat) :
    (copyConstructB dL dR src ys).cmpL = dL ∧
      (copyConstructB dL dR src ys).cmpR = dR := by
  rw [copyConstructB]
  exact ⟨copyLoop_cmpL ys 0 (emptyBM dL dR) _, copyLoop_cmpR ys 0 (emptyBM dL dR) _⟩

/-! ## Invariant preservation without the size equation (`Inv0`) -/

theorem Inv0.insertP {b : BM L R} (hL : StrictCmp b.cmpL) (hR : StrictCmp b.cmpR)
    (h : Inv0 b) (lv : L) (rv : R) (yl yr : Nat) : Inv0 (insertB b lv rv yl yr).2 := by
  by_cases hcl : ∃ e ∈ inorder b.ltree, e.1 = lv
  · obtain ⟨-, hlt, hrt, -, hc1, hc2⟩ := insertB_conflict_left hL h lv rv yl yr hcl
    exact ⟨by rw [SortedBy, hlt, hc1]; exact h.ordL,
      by rw [SortedBy, hrt, hc2]; exact h.ordR,
      by rw [hlt, hrt]; exact h.perm⟩
  · push_neg at hcl
    by_cases hcr : ∃ e ∈ inorder b.rtree, e.2 = rv
    · obtain ⟨-, hlt, hrt, -, hc1, hc2⟩ :=
        insertB_conflict_right hL hR h lv rv yl yr hcl hcr
      exact ⟨by rw [SortedBy, hlt, hc1]; exact h.ordL,
        by rw [SortedBy, hrt, hc2]; exact h.ordR,
        by rw [hlt, hrt]; exact h.perm⟩
    · push_neg at hcr
      exact (insertB_success hL hR h lv rv yl yr hcl hcr).2.2.2.2.2.2

theorem Inv0.eraseAtP {b : BM L R} (hL : StrictCmp b.cmpL) (hR : StrictCmp b.cmpR)
    (h : Inv0 b) (e : L × R) : Inv0 (eraseLeftAtB b e).2 := by
  obtain ⟨hlt, hrt, -, hc1, hc2⟩ := eraseLeftAtB_obs hL hR h e
  exact ⟨by rw [SortedBy, hlt, hc1]; exact h.ordL.sublist (List.filter_sublist _),
    by rw [SortedBy, hrt, hc2]; exact h.ordR.sublist (List.filter_sublist _),
    by rw [hlt, hrt]; exact h.perm.filter _⟩

theorem Inv0.eraseLeftKeyP {b : BM L R} (hL : StrictCmp b.cmpL)
    (hR : StrictCmp b.cmpR) (h : Inv0 b) (k : L) : Inv0 (eraseLeftKeyB b k).2 := by
  simp only [eraseLeftKeyB]
  cases hf : (findLeftB b k).1 with
  | none => exact h.findLeft0 k
  | some e =>
    exact Inv0.eraseAtP (b := (findLeftB b k).2) hL hR (h.findLeft0 k) e

theorem Inv0.eraseRightKeyP {b : BM L R} (hL : StrictCmp b.cmpL)
    (hR : StrictCmp b.cmpR) (h : Inv0 b) (k : R) : Inv0 (eraseRightKeyB b k).2 := by
  simp only [eraseRightKeyB]
  cases hf : (findRightB b k).1 with
  | none => exact h.findRight0 k
  | some e =>
    rw [eraseRightAtB_snd]
    exact Inv0.eraseAtP (b := (findRightB b k).2) hL hR (h.findRight0 k) e

theorem Inv0.eraseEntriesP {b : BM L R} (hL : StrictCmp b.cmpL)
    (hR : StrictCmp b.cmpR) (h : Inv0 b) (es : List (L × R)) :
    Inv0 (eraseEntriesB b es) := by
  induction es generalizing b with
  | nil => exact h
  | cons e rest ih =>
    rw [eraseEntriesB]
    apply ih
    · exact hL
    · exact hR
    · exact Inv0.eraseAtP hL hR h e

theorem Inv0.eraseLeftRangeP {b : BM L R} (hL : StrictCmp b.cmpL)
    (hR : StrictCmp b.cmpR) (h : Inv0 b) (i j : Nat) :
    Inv0 (eraseLeftRangeB b i j).2 :=
  Inv0.eraseEntriesP hL hR h _

theorem Inv0.eraseRightRangeP {b : BM L R} (hL : StrictCmp b.cmpL)
    (hR : StrictCmp b.cmpR) (h : Inv0 b) (i j : Nat) :
    Inv0 (eraseRightRangeB b i j).2 :=
  Inv0.eraseEntriesP hL hR h _

theorem Inv0.atLeftDef0 {b : BM L R} (hL : StrictCmp b.cmpL) (hR : StrictCmp b.cmpR)
    (h : Inv0 b) (k : L) (dR : R) (yl yr : Nat) :
    Inv0 (atLeftOrDefaultB b k dR yl yr).2 := by
  simp only [atLeftOrDefaultB]
  cases h1 : (findLeftB b k).1 with
  | some e => exact h.findLeft0 k
  | none =>
    have h3 : Inv0 (eraseRightKeyB (findLeftB b k).2 dR).2 :=
      Inv0.eraseRightKeyP (b := (findLeftB b k).2) hL hR (h.findLeft0 k) dR
    have hL3 : StrictCmp (eraseRightKeyB (findLeftB b k).2 dR).2.cmpL := by
      rw [eraseRightKeyB_cmpL]; exact hL
    have hR3 : StrictCmp (eraseRightKeyB (findLeftB b k).2 dR).2.cmpR := by
      rw [eraseRightKeyB_cmpR]; exact hR
    have h4 := Inv0.insertP hL3 hR3 h3 k dR yl yr
    cases h2 : (insertB (eraseRightKeyB (findLeftB b k).2 dR).2 k dR yl yr).1 with
    | some e => exact h4
    | none => exact h4

theorem Inv0.atRightDef0 {b : BM L R} (hL : StrictCmp b.cmpL) (hR : StrictCmp b.cmpR)
    (h : Inv0 b) (k : R) (dL : L) (yl yr : Nat) :
    Inv0 (atRightOrDefaultB b k dL yl yr).2 := by
  simp only [atRightOrDefaultB]
  cases h1 : (findRightB b k).1 with
  | some e => exact h.findRight0 k
  | none =>
    have h3 : Inv0 (eraseLeftKeyB (findRightB b k).2 dL).2 :=
      Inv0.eraseLeftKeyP (b := (findRightB b k).2) hL hR (h.findRight0 k) dL
    have hL3 : StrictCmp (eraseLeftKeyB (findRightB b k).2 dL).2.cmpL := by
      rw [eraseLeftKeyB_cmpL]; exact hL
    have hR3 : StrictCmp (eraseLeftKeyB (findRightB b k).2 dL).2.cmpR := by
      rw [eraseLeftKeyB_cmpR]; exact hR
    have h4 := Inv0.insertP hL3 hR3 h3 dL k yl yr
    cases h2 : (insertB (eraseLeftKeyB (findRightB b k).2 dL).2 dL k yl yr).1 with
    | some e => exact h4
    | none => exact h4

theorem Inv0.swapFst0 {a c : BM L R} (hc : Inv0 c) (hcl : a.cmpL = c.cmpL)
    (hcr : a.cmpR = c.cmpR) : Inv0 (swapBM a c).1 := by
  refine ⟨?_, ?_, hc.perm⟩
  · show SortedBy a.cmpL Prod.fst (inorder c.ltree)
    rw [hcl]; exact hc.ordL
  · show SortedBy a.cmpR Prod.snd (inorder c.rtree)
    rw [hcr]; exact hc.ordR

theorem Inv0.moveSrcP (b : BM L R) : Inv0 (moveConstructB b).2 := by
  refine ⟨?_, ?_, ?_⟩
  · show SortedBy b.cmpL Prod.fst (inorder (Tree.nil : Tree (L × R)))
    exact List.Pairwise.nil
  · show SortedBy b.cmpR Prod.snd (inorder (Tree.nil : Tree (L × R)))
    exact List.Pairwise.nil
  · exact List.Perm.refl _

/-! ## Full-invariant preservation of swap, copy and move -/

theorem Inv.swapFstP {a c : BM L R} (hc : Inv c) (hcl : a.cmpL = c.cmpL)
    (hcr : a.cmpR = c.cmpR) : Inv (swapBM a c).1 :=
  ⟨Inv0.swapFst0 hc.toInv0 hcl hcr, hc.szEq⟩

theorem Inv.emptyP (cL : L → L → Bool) (cR : R → R → Bool) :
    Inv (emptyBM cL cR : BM L R) :=
  ⟨⟨List.Pairwise.nil, List.Pairwise.nil, List.Perm.refl _⟩, rfl⟩

theorem Inv.copyLoopP {dL : L → L → Bool} {dR : R → R → Bool}
    (hdL : StrictCmp dL) (hdR : StrictCmp dR) (ys : Nat → Nat × Nat)
    (es : List (L × R)) :
    ∀ (i : Nat) (acc : BM L R), Inv acc → acc.cmpL = dL → acc.cmpR = dR →
      Inv (copyLoop ys i acc es) := by
  induction es with
  | nil => intro i acc h _ _; exact h
  | cons e rest ih =>
    intro i acc h h1 h2
    rw [copyLoop]
    refine ih _ _ ?_ ?_ ?_
    · exact Inv.insertB (by rw [h1]; exact hdL) (by rw [h2]; exact hdR) h e.1 e.2 _ _
    · rw [insertB_cmpL, h1]
    · rw [insertB_cmpR, h2]

theorem Inv.copyConstructP {dL : L → L → Bool} {dR : R → R → Bool}
    (hdL : StrictCmp dL) (hdR : StrictCmp dR) (src : BM L R)
    (ys : Nat → Nat × Nat) : Inv (copyConstructB dL dR src ys) :=
  Inv.copyLoopP hdL hdR ys _ 0 (emptyBM dL dR) (Inv.emptyP dL dR) rfl rfl

theorem copyAssignB_cmpL (dL : L → L → Bool) (dR : R → R → Bool) (a c : BM L R)
    (ys : Nat → Nat × Nat) : (copyAssignB dL dR a c ys).cmpL = a.cmpL := by
  rw [copyAssignB]
  by_cases hbe : bmBeq a c = true
  · rw [if_pos hbe]
  · rw [if_neg hbe]
    rfl

theorem copyAssignB_cmpR (dL : L → L → Bool) (dR : R → R → Bool) (a c : BM L R)
    (ys : Nat → Nat × Nat) : (copyAssignB dL dR a c ys).cmpR = a.cmpR := by
  rw [copyAssignB]
  by_cases hbe : bmBeq a c = true
  · rw [if_pos hbe]
  · rw [if_neg hbe]
    rfl

theorem moveAssignB_fst_cmpL (a c : BM L R) : (moveAssignB a c).1.cmpL = a.cmpL := by
  rw [moveAssignB]
  by_cases hbe : bmBeq a c = true
  · rw [if_pos hbe]
  · rw [if_neg hbe]
    rfl

theorem moveAssignB_fst_cmpR (a c : BM L R) : (moveAssignB a c).1.cmpR = a.cmpR := by
  rw [moveAssignB]
  by_cases hbe : bmBeq a c = true
  · rw [if_pos hbe]
  · rw [if_neg hbe]
    rfl

theorem moveAssignB_snd_cmpL (a c : BM L R) : (moveAssignB a c).2.cmpL = c.cmpL := by
  rw [moveAssignB]
  by_cases hbe : bmBeq a c = true
  · rw [if_pos hbe]
  · rw [if_neg hbe]
    rfl

theorem moveAssignB_snd_cmpR (a c : BM L R) : (moveAssignB a c).2.cmpR = c.cmpR := by
  rw [moveAssignB]
  by_cases hbe : bmBeq a c = true
  · rw [if_pos hbe]
  · rw [if_neg hbe]
    rfl

theorem Inv.copyAssignP {dL : L → L → Bool} {dR : R → R → Bool}
    (hdL : StrictCmp dL) (hdR : StrictCmp dR) {a : BM L R} (c : BM L R)
    (ha : Inv a) (hacl : a.cmpL = dL) (hacr : a.cmpR = dR)
    (ys : Nat → Nat × Nat) : Inv (copyAssignB dL dR a c ys) := by
  rw [copyAssignB]
  by_cases hbe : bmBeq a c = true
  · rw [if_pos hbe]; exact ha
  · rw [if_neg hbe]
    exact Inv.swapFstP (Inv.copyConstructP hdL hdR c ys)
      (by rw [hacl, (copyConstructB_cmp dL dR c ys).1])
      (by rw [hacr, (copyConstructB_cmp dL dR c ys).2])

theorem Inv0.copyAssign0 {dL : L → L → Bool} {dR : R → R → Bool}
    (hdL : StrictCmp dL) (hdR : StrictCmp dR) {a : BM L R} (c : BM L R)
    (ha : Inv0 a) (hacl : a.cmpL = dL) (hacr : a.cmpR = dR)
    (ys : Nat → Nat × Nat) : Inv0 (copyAssignB dL dR a c ys) := by
  rw [copyAssignB]
  by_cases hbe : bmBeq a c = true
  · rw [if_pos hbe]; exact ha
  · rw [if_neg hbe]
    exact Inv0.swapFst0 (Inv.copyConstructP hdL hdR c ys).toInv0
      (by rw [hacl, (copyConstructB_cmp dL dR c ys).1])
      (by rw [hacr, (copyConstructB_cmp dL dR c ys).2])

theorem Inv.moveAssignFstP {a c : BM L R} (ha : Inv a) (hc : Inv c)
    (hacl : a.cmpL = c.cmpL) (hacr : a.cmpR = c.cmpR) : Inv (moveAssignB a c).1 := by
  rw [moveAssignB]
  by_cases hbe : bmBeq a c = true
  · rw [if_pos hbe]; exact ha
  · rw [if_neg hbe]
    exact Inv.swapFstP (c := (moveConstructB c).1) hc hacl hacr

theorem Inv0.moveAssignFst0 {a c : BM L R} (ha : Inv0 a) (hc : Inv0 c)
    (hacl : a.cmpL = c.cmpL) (hacr : a.cmpR = c.cmpR) : Inv0 (moveAssignB a c).1 := by
  rw [moveAssignB]
  by_cases hbe : bmBeq a c = true
  · rw [if_pos hbe]; exact ha
  · rw [if_neg hbe]
    exact Inv0.swapFst0 (c := (moveConstructB c).1) hc hacl hacr

theorem Inv0.moveAssignSndP {a c : BM L R} (hc : Inv0 c) :
    Inv0 (moveAssignB a c).2 := by
  rw [moveAssignB]
  by_cases hbe : bmBeq a c = true
  · rw [if_pos hbe]; exact hc
  · rw [if_neg hbe]; exact Inv0.moveSrcP c

/-- Full-invariant preservation of `at_left_or_default`. -/
theorem Inv.atLeftDefP {b : BM L R} (hL : StrictCmp b.cmpL) (hR : StrictCmp b.cmpR)
    (h : Inv b) (k : L) (dR : R) (yl yr : Nat) :
    Inv (atLeftOrDefaultB b k dR yl yr).2 := by
  simp only [atLeftOrDefaultB]
  cases h1 : (findLeftB b k).1 with
  | some e => exact h.findLeft k
  | none =>
    have h3 : Inv (eraseRightKeyB (findLeftB b k).2 dR).2 :=
      Inv.eraseRightKey (b := (findLeftB b k).2) hL hR (h.findLeft k) dR
    have hL3 : StrictCmp (eraseRightKeyB (findLeftB b k).2 dR).2.cmpL := by
      rw [eraseRightKeyB_cmpL]; exact hL
    have hR3 : StrictCmp (eraseRightKeyB (findLeftB b k).2 dR).2.cmpR := by
      rw [eraseRightKeyB_cmpR]; exact hR
    have h4 := Inv.insertB hL3 hR3 h3 k dR yl yr
    cases h2 : (BimapModel.insertB (eraseRightKeyB (findLeftB b k).2 dR).2 k dR yl yr).1 with
    | some e => exact h4
    | none => exact h4

/-- Full-invariant preservation of `at_right_or_default`. -/
theorem Inv.atRightDefP {b : BM L R} (hL : StrictCmp b.cmpL) (hR : StrictCmp b.cmpR)
    (h : Inv b) (k : R) (dL : L) (yl yr : Nat) :
    Inv (atRightOrDefaultB b k dL yl yr).2 := by
  simp only [atRightOrDefaultB]
  cases h1 : (findRightB b k).1 with
  | some e => exact h.findRight k
  | none =>
    have h3 : Inv (eraseLeftKeyB (findRightB b k).2 dL).2 :=
      Inv.eraseLeftKey (b := (findRightB b k).2) hL hR (h.findRight k) dL
    have hL3 : StrictCmp (eraseLeftKeyB (findRightB b k).2 dL).2.cmpL := by
      rw [eraseLeftKeyB_cmpL]; exact hL
    have hR3 : StrictCmp (eraseLeftKeyB (findRightB b k).2 dL).2.cmpR := by
      rw [eraseLeftKeyB_cmpR]; exact hR
    have h4 := Inv.insertB hL3 hR3 h3 dL k yl yr
    cases h2 : (BimapModel.insertB (eraseLeftKeyB (findRightB b k).2 dL).2 dL k yl yr).1 with
    | some e => exact h4
    | none => exact h4

/-- Full-invariant preservation of `erase_left(first, last)`. -/
theorem Inv.eraseRightRange {b : BM L R} (hL : StrictCmp b.cmpL)
    (hR : StrictCmp b.cmpR) (h : Inv b) (i j : Nat) :
    Inv (eraseRightRangeB b i j).2 := by
  rw [eraseRightRangeB]
  have hsl : (((inorder b.rtree).drop i).take (j - i)).Sublist (inorder b.rtree) :=
    (List.take_sublist _ _).trans (List.drop_sublist _ _)
  exact Inv.eraseEntries hL hR h
    ((sortedBy_nodup hR h.ordR).sublist hsl)
    (fun e he => h.perm.mem_iff.mpr (hsl.mem he))

/-! ## States reachable by sequences of public operations -/

/-- The bimap states reachable from the default-constructed instance
`bimap(cL, cR)` by the public operations: insert, erase by (valid)
iterator / key / range, `at_or_default`, swap, copy construction, copy
assignment, move construction and move assignment.  The priorities drawn
from `rand()` are universally quantified in the constructors. -/
inductive Reach (cL : L → L → Bool) (cR : R → R → Bool) : BM L R → Prop where
  | empty : Reach cL cR (emptyBM cL cR)
  | ins (b : BM L R) (lv : L) (rv : R) (yl yr : Nat) :
      Reach cL cR b → Reach cL cR (insertB b lv rv yl yr).2
  | erLIt (b : BM L R) (e : L × R) : Reach cL cR b → e ∈ inorder b.ltree →
      Reach cL cR (eraseLeftAtB b e).2
  | erRIt (b : BM L R) (e : L × R) : Reach cL cR b → e ∈ inorder b.rtree →
      Reach cL cR (eraseRightAtB b e).2
  | erLKey (b : BM L R) (k : L) : Reach cL cR b → Reach cL cR (eraseLeftKeyB b k).2
  | erRKey (b : BM L R) (k : R) : Reach cL cR b → Reach cL cR (eraseRightKeyB b k).2
  | erLRange (b : BM L R) (i j : Nat) : Reach cL cR b →
      Reach cL cR (eraseLeftRangeB b i j).2
  | erRRange (b : BM L R) (i j : Nat) : Reach cL cR b →
      Reach cL cR (eraseRightRangeB b i j).2
  | atLDef (b : BM L R) (k : L) (dR : R) (yl yr : Nat) : Reach cL cR b →
      Reach cL cR (atLeftOrDefaultB b k dR yl yr).2
  | atRDef (b : BM L R) (k : R) (dL : L) (yl yr : Nat) : Reach cL cR b →
      Reach cL cR (atRightOrDefaultB b k dL yl yr).2
  | swapL (a c : BM L R) : Reach cL cR a → Reach cL cR c →
      Reach cL cR (swapBM a c).1
  | copyCons (b : BM L R) (ys : Nat → Nat × Nat) : Reach cL cR b →
      Reach cL cR (copyConstructB cL cR b ys)
  | copyAsg (a c : BM L R) (ys : Nat → Nat × Nat) : Reach cL cR a →
      Reach cL cR c → Reach cL cR (copyAssignB cL cR a c ys)
  | moveCons (b : BM L R) : Reach cL cR b → Reach cL cR (moveConstructB b).2
  | moveAsgT (a c : BM L R) : Reach cL cR a → Reach cL cR c →
      Reach cL cR (moveAssignB a c).1
  | moveAsgS (a c : BM L R) : Reach cL cR a → Reach cL cR c →
      Reach cL cR (moveAssignB a c).2

/-- The same reachable states, excluding the two operations that leave a
moved-from instance behind (the source of a move construction and of a
move assignment). -/
inductive ReachNM (cL : L → L → Bool) (cR : R → R → Bool) : BM L R → Prop where
  | empty : ReachNM cL cR (emptyBM cL cR)
  | ins (b : BM L R) (lv : L) (rv : R) (yl yr : Nat) :
      ReachNM cL cR b → ReachNM cL cR (insertB b lv rv yl yr).2
  | erLIt (b : BM L R) (e : L × R) : ReachNM cL cR b → e ∈ inorder b.ltree →
      ReachNM cL cR (eraseLeftAtB b e).2
  | erRIt (b : BM L R) (e : L × R) : ReachNM cL cR b → e ∈ inorder b.rtree →
      ReachNM cL cR (eraseRightAtB b e).2
  | erLKey (b : BM L R) (k : L) : ReachNM cL cR b → ReachNM cL cR (eraseLeftKeyB b k).2
  | erRKey (b : BM L R) (k : R) : ReachNM cL cR b → ReachNM cL cR (eraseRightKeyB b k).2
  | erLRange (b : BM L R) (i j : Nat) : ReachNM cL cR b →
      ReachNM cL cR (eraseLeftRangeB b i j).2
  | erRRange (b : BM L R) (i j : Nat) : ReachNM cL cR b →
      ReachNM cL cR (eraseRightRangeB b i j).2
  | atLDef (b : BM L R) (k : L) (dR : R) (yl yr : Nat) : ReachNM cL cR b →
      ReachNM cL cR (atLeftOrDefaultB b k dR yl yr).2
  | atRDef (b : BM L R) (k : R) (dL : L) (yl yr : Nat) : ReachNM cL cR b →
      ReachNM cL cR (atRightOrDefaultB b k dL yl yr).2
  | swapL (a c : BM L R) : ReachNM cL cR a → ReachNM cL cR c →
      ReachNM cL cR (swapBM a c).1
  | copyCons (b : BM L R) (ys : Nat → Nat × Nat) : ReachNM cL cR b →
      ReachNM cL cR (copyConstructB cL cR b ys)
  | copyAsg (a c : BM L R) (ys : Nat → Nat × Nat) : ReachNM cL cR a →
      ReachNM cL cR c → ReachNM cL cR (copyAssignB cL cR a c ys)
  | moveAsgT (a c : BM L R) : ReachNM cL cR a → ReachNM cL cR c →
      ReachNM cL cR (moveAssignB a c).1

/-- Every reachable state keeps the comparators it was constructed
with. -/
theorem Reach.cmp_eq {cL : L → L → Bool} {cR : R → R → Bool} {b : BM L R}
    (h : Reach cL cR b) : b.cmpL = cL ∧ b.cmpR = cR := by
  induction h with
  | empty => exact ⟨rfl, rfl⟩
  | ins b lv rv yl yr _ ih => rw [insertB_cmpL, insertB_cmpR]; exact ih
  | erLIt b e _ _ ih => exact ih
  | erRIt b e _ _ ih => exact ih
  | erLKey b k _ ih => rw [eraseLeftKeyB_cmpL, eraseLeftKeyB_cmpR]; exact ih
  | erRKey b k _ ih => rw [eraseRightKeyB_cmpL, eraseRightKeyB_cmpR]; exact ih
  | erLRange b i j _ ih =>
    exact ⟨(eraseEntriesB_cmpL b _).trans ih.1, (eraseEntriesB_cmpR b _).trans ih.2⟩
  | erRRange b i j _ ih =>
    exact ⟨(eraseEntriesB_cmpL b _).trans ih.1, (eraseEntriesB_cmpR b _).trans ih.2⟩
  | atLDef b k dR yl yr _ ih =>
    rw [atLeftOrDefaultB_cmpL, atLeftOrDefaultB_cmpR]; exact ih
  | atRDef b k dL yl yr _ ih =>
    rw [atRightOrDefaultB_cmpL, atRightOrDefaultB_cmpR]; exact ih
  | swapL a c _ _ iha ihc => exact iha
  | copyCons b ys _ ih =>
    exact ⟨(copyConstructB_cmp cL cR b ys).1, (copyConstructB_cmp cL cR b ys).2⟩
  | copyAsg a c ys _ _ iha ihc =>
    rw [copyAssignB_cmpL, copyAssignB_cmpR]; exact iha
  | moveCons b _ ih => exact ih
  | moveAsgT a c _ _ iha ihc =>
    rw [moveAssignB_fst_cmpL, moveAssignB_fst_cmpR]; exact iha
  | moveAsgS a c _ _ iha ihc =>
    rw [moveAssignB_snd_cmpL, moveAssignB_snd_cmpR]; exact ihc

theorem ReachNM.toReach {cL : L → L → Bool} {cR : R → R → Bool} {b : BM L R}
    (h : ReachNM cL cR b) : Reach cL cR b := by
  induction h with
  | empty => exact Reach.empty
  | ins b lv rv yl yr _ ih => exact Reach.ins b lv rv yl yr ih
  | erLIt b e _ hm ih => exact Reach.erLIt b e ih hm
  | erRIt b e _ hm ih => exact Reach.erRIt b e ih hm
  | erLKey b k _ ih => exact Reach.erLKey b k ih
  | erRKey b k _ ih => exact Reach.erRKey b k ih
  | erLRange b i j _ ih => exact Reach.erLRange b i j ih
  | erRRange b i j _ ih => exact Reach.erRRange b i j ih
  | atLDef b k dR yl yr _ ih => exact Reach.atLDef b k dR yl yr ih
  | atRDef b k dL yl yr _ ih => exact Reach.atRDef b k dL yl yr ih
  | swapL a c _ _ iha ihc => exact Reach.swapL a c iha ihc
  | copyCons b ys _ ih => exact Reach.copyCons b ys ih
  | copyAsg a c ys _ _ iha ihc => exact Reach.copyAsg a c ys iha ihc
  | moveAsgT a c _ _ iha ihc => exact Reach.moveAsgT a c iha ihc

/-- Ordering/uniqueness invariant for every reachable state (moves
included). -/
theorem Reach.inv0 {cL : L → L → Bool} {cR : R → R → Bool}
    (hL : StrictCmp cL) (hR : StrictCmp cR) {b : BM L R}
    (h : Reach cL cR b) : Inv0 b := by
  induction h with
  | empty => exact ⟨List.Pairwise.nil, List.Pairwise.nil, List.Perm.refl _⟩
  | ins b lv rv yl yr hr ih =>
    exact Inv0.insertP (by rw [hr.cmp_eq.1]; exact hL)
      (by rw [hr.cmp_eq.2]; exact hR) ih lv rv yl yr
  | erLIt b e hr _ ih =>
    exact Inv0.eraseAtP (by rw [hr.cmp_eq.1]; exact hL)
      (by rw [hr.cmp_eq.2]; exact hR) ih e
  | erRIt b e hr _ ih =>
    rw [eraseRightAtB_snd]
    exact Inv0.eraseAtP (by rw [hr.cmp_eq.1]; exact hL)
      (by rw [hr.cmp_eq.2]; exact hR) ih e
  | erLKey b k hr ih =>
    exact Inv0.eraseLeftKeyP (by rw [hr.cmp_eq.1]; exact hL)
      (by rw [hr.cmp_eq.2]; exact hR) ih k
  | erRKey b k hr ih =>
    exact Inv0.eraseRightKeyP (by rw [hr.cmp_eq.1]; exact hL)
      (by rw [hr.cmp_eq.2]; exact hR) ih k
  | erLRange b i j hr ih =>
    exact Inv0.eraseLeftRangeP (by rw [hr.cmp_eq.1]; exact hL)
      (by rw [hr.cmp_eq.2]; exact hR) ih i j
  | erRRange b i j hr ih =>
    exact Inv0.eraseRightRangeP (by rw [hr.cmp_eq.1]; exact hL)
      (by rw [hr.cmp_eq.2]; exact hR) ih i j
  | atLDef b k dR yl yr hr ih =>
    exact Inv0.atLeftDef0 (by rw [hr.cmp_eq.1]; exact hL)
      (by rw [hr.cmp_eq.2]; exact hR) ih k dR yl yr
  | atRDef b k dL yl yr hr ih =>
    exact Inv0.atRightDef0 (by rw [hr.cmp_eq.1]; exact hL)
      (by rw [hr.cmp_eq.2]; exact hR) ih k dL yl yr
  | swapL a c hra hrc iha ihc =>
    exact Inv0.swapFst0 ihc (hra.cmp_eq.1.trans hrc.cmp_eq.1.symm)
      (hra.cmp_eq.2.trans hrc.cmp_eq.2.symm)
  | copyCons b ys _ ih => exact (Inv.copyConstructP hL hR b ys).toInv0
  | copyAsg a c ys hra hrc iha ihc =>
    exact Inv0.copyAssign0 hL hR c iha hra.cmp_eq.1 hra.cmp_eq.2 ys
  | moveCons b _ ih => exact Inv0.moveSrcP b
  | moveAsgT a c hra hrc iha ihc =>
    exact Inv0.moveAssignFst0 iha ihc
      (hra.cmp_eq.1.trans hrc.cmp_eq.1.symm) (hra.cmp_eq.2.trans hrc.cmp_eq.2.symm)
  | moveAsgS a c hra hrc iha ihc => exact Inv0.moveAssignSndP ihc

/-- Full invariant (size included) for every state reachable without
leaving a moved-from instance. -/
theorem ReachNM.inv {cL : L → L → Bool} {cR : R → R → Bool}
    (hL : StrictCmp cL) (hR : StrictCmp cR) {b : BM L R}
    (h : ReachNM cL cR b) : Inv b := by
  induction h with
  | empty => exact Inv.emptyP cL cR
  | ins b lv rv yl yr hr ih =>
    exact Inv.insertB (by rw [hr.toReach.cmp_eq.1]; exact hL)
      (by rw [hr.toReach.cmp_eq.2]; exact hR) ih lv rv yl yr
  | erLIt b e hr hm ih =>
    exact Inv.eraseLeftAt (by rw [hr.toReach.cmp_eq.1]; exact hL)
      (by rw [hr.toReach.cmp_eq.2]; exact hR) ih hm
  | erRIt b e hr hm ih =>
    rw [eraseRightAtB_snd]
    exact Inv.eraseLeftAt (by rw [hr.toReach.cmp_eq.1]; exact hL)
      (by rw [hr.toReach.cmp_eq.2]; exact hR) ih (ih.perm.mem_iff.mpr hm)
  | erLKey b k hr ih =>
    exact Inv.eraseLeftKey (by rw [hr.toReach.cmp_eq.1]; exact hL)
      (by rw [hr.toReach.cmp_eq.2]; exact hR) ih k
  | erRKey b k hr ih =>
    exact Inv.eraseRightKey (by rw [hr.toReach.cmp_eq.1]; exact hL)
      (by rw [hr.toReach.cmp_eq.2]; exact hR) ih k
  | erLRange b i j hr ih =>
    exact Inv.eraseLeftRange (by rw [hr.toReach.cmp_eq.1]; exact hL)
      (by rw [hr.toReach.cmp_eq.2]; exact hR) ih i j
  | erRRange b i j hr ih =>
    exact Inv.eraseRightRange (by rw [hr.toReach.cmp_eq.1]; exact hL)
      (by rw [hr.toReach.cmp_eq.2]; exact hR) ih i j
  | atLDef b k dR yl yr hr ih =>
    exact Inv.atLeftDefP (by rw [hr.toReach.cmp_eq.1]; exact hL)
      (by rw [hr.toReach.cmp_eq.2]; exact hR) ih k dR yl yr
  | atRDef b k dL yl yr hr ih =>
    exact Inv.atRightDefP (by rw [hr.toReach.cmp_eq.1]; exact hL)
      (by rw [hr.toReach.cmp_eq.2]; exact hR) ih k dL yl yr
  | swapL a c hra hrc iha ihc =>
    exact Inv.swapFstP ihc
      (hra.toReach.cmp_eq.1.trans hrc.toReach.cmp_eq.1.symm)
      (hra.toReach.cmp_eq.2.trans hrc.toReach.cmp_eq.2.symm)
  | copyCons b ys _ ih => exact Inv.copyConstructP hL hR b ys
  | copyAsg a c ys hra hrc iha ihc =>
    exact Inv.copyAssignP hL hR c iha hra.toReach.cmp_eq.1 hra.toReach.cmp_eq.2 ys
  | moveAsgT a c hra hrc iha ihc =>
    exact Inv.moveAssignFstP iha ihc
      (hra.toReach.cmp_eq.1.trans hrc.toReach.cmp_eq.1.symm)
      (hra.toReach.cmp_eq.2.trans hrc.toReach.cmp_eq.2.symm)

namespace Tree

variable {α β : Type}

theorem nextAfter_append [DecidableEq α] {l1 : List α} {e : α} (l2 : List α)
    (he : e ∉ l1) : nextAfter (l1 ++ e :: l2) e = l2.head? := by
  induction l1 with
  | nil => simp [nextAfter]
  | cons x xs ih =>
    have hxe : x ≠ e := fun h => he (h ▸ List.mem_cons_self _ _)
    rw [List.cons_append, nextAfter, if_neg hxe]
    exact ih fun h => he (List.mem_cons_of_mem _ h)

/-- `upper_bound` returns the first element whose key is strictly greater
than the query (`end` when there is none) — claim C8's characterization. -/
theorem upperBoundT_fst [DecidableEq β] [DecidableEq α] {lt : β → β → Bool}
    {key : α → β} (hcmp : StrictCmp lt) {v : β} {t : Tree α}
    (hs : SortedBy lt key (inorder t)) :
    (upperBoundT lt key v t).1 = (inorder t).find? (fun e => lt v (key e)) := by
  have happ := inorder_splitT lt key v false t
  have hpred := splitT_pred hcmp key v false t hs
  have hmerge : inorder (mergeT (splitT lt key v false t).1 (splitT lt key v false t).2) =
      inorder t := by rw [inorder_mergeT, happ]
  have hs1false : ∀ e ∈ inorder (splitT lt key v false t).1, lt v (key e) = false := by
    intro e he
    have := hpred.1 e he
    simp only [splitPred, Bool.not_false, Bool.true_and, Bool.false_and,
      Bool.or_false, Bool.or_eq_false_iff] at this
    exact this.1
  rw [upperBoundT]
  simp only [lowerBoundT, getMinT_eq_head]
  cases hs2 : inorder (splitT lt key v false t).2 with
  | nil =>
    simp only [List.head?_nil]
    rw [← happ, hs2, List.append_nil]
    rw [eq_comm, List.find?_eq_none]
    intro e he
    rw [hs1false e he]
    exact Bool.false_ne_true
  | cons e s2t =>
    have hsort2 : SortedBy lt key (inorder (splitT lt key v false t).2) := by
      rw [SortedBy] at hs ⊢
      rw [← happ, List.pairwise_append] at hs
      exact hs.2.1
    have hpe : splitPred lt v false (key e) = true :=
      hpred.2 e (by rw [hs2]; exact List.mem_cons_self _ _)
    have hnotin1 : e ∉ inorder (splitT lt key v false t).1 := fun hin => by
      rw [hpred.1 e hin] at hpe
      exact Bool.false_ne_true hpe
    simp only [hs2, List.head?_cons]
    by_cases hke : key e = v
    · rw [if_pos hke, hmerge, ← happ, hs2]
      rw [nextAfter_append s2t hnotin1]
      rw [find?_append_of_forall_false (e :: s2t)
        (fun x hx => hs1false x hx)]
      rw [List.find?_cons]
      have hpe2 : lt v (key e) = false := by rw [hke]; exact hcmp.irrefl v
      rw [hpe2]
      simp only [Bool.false_eq_true, if_false]
      refine (find?_eq_head_of_forall_true ?_).symm
      intro x hx
      have hlt : lt (key e) (key x) = true := by
        rw [hs2, SortedBy, List.pairwise_cons] at hsort2
        exact hsort2.1 x hx
      rw [← hke]
      exact hlt
    · rw [if_neg hke, ← happ, hs2]
      rw [find?_append_of_forall_false (e :: s2t)
        (fun x hx => hs1false x hx)]
      rw [List.find?_cons]
      have hpe2 : lt v (key e) = true := by
        simp only [splitPred, Bool.not_false, Bool.true_and, Bool.false_and,
          Bool.or_false, Bool.or_eq_true_iff] at hpe
        rcases hpe with h1 | h1
        · exact h1
        · exact absurd (of_decide_eq_true h1).symm hke
      rw [hpe2]

end Tree

/-! ## Concrete comparators for witnesses -/

/-- `std::less<Nat>` — the default comparator. -/
def natLt : Nat → Nat → Bool := fun a b => decide (a < b)

/-- A non-default comparator object: the reversed order. -/
def natGt : Nat → Nat → Bool := fun a b => decide (b < a)

theorem natLt_strict : StrictCmp natLt := by
  refine ⟨?_, ?_, ?_⟩
  · intro a; simp [natLt]
  · intro a b c h1 h2
    simp only [natLt, decide_eq_true_eq] at h1 h2 ⊢
    omega
  · intro a b h
    simp only [natLt, decide_eq_true_eq]
    omega

theorem natGt_strict : StrictCmp natGt := by
  refine ⟨?_, ?_, ?_⟩
  · intro a; simp [natGt]
  · intro a b c h1 h2
    simp only [natGt, decide_eq_true_eq] at h1 h2 ⊢
    omega
  · intro a b h
    simp only [natGt, decide_eq_true_eq]
    omega

/-! ## The claims -/

/-- C1: `insert(l, r)` is a no-op returning `end_left()` when `l` is
already present on the left side or `r` on the right side — size,
membership and every existing association unchanged; otherwise exactly
one new entry appears in both indices (the resulting sequences are the
old ones plus the one entry), `size_` is incremented by one, and the left
position of the new entry is returned.  `insertB` produces only the final
state, so no intermediate state with the entry in a single index is
observable. -/
theorem claim_C1 {L R : Type} [DecidableEq L] [DecidableEq R] {b : BM L R}
    (hL : StrictCmp b.cmpL) (hR : StrictCmp b.cmpR) (h : Inv b)
    (lv : L) (rv : R) (yl yr : Nat) :
    (((∃ e ∈ inorder b.ltree, e.1 = lv) ∨ (∃ e ∈ inorder b.rtree, e.2 = rv)) →
      (insertB b lv rv yl yr).1 = endL ∧
        inorder (insertB b lv rv yl yr).2.ltree = inorder b.ltree ∧
        inorder (insertB b lv rv yl yr).2.rtree = inorder b.rtree ∧
        sizeB (insertB b lv rv yl yr).2 = sizeB b) ∧
    ((∀ e ∈ inorder b.ltree, e.1 ≠ lv) → (∀ e ∈ inorder b.rtree, e.2 ≠ rv) →
      (insertB b lv rv yl yr).1 = some (lv, rv) ∧
        (inorder (insertB b lv rv yl yr).2.ltree).Perm ((lv, rv) :: inorder b.ltree) ∧
        (inorder (insertB b lv rv yl yr).2.rtree).Perm ((lv, rv) :: inorder b.rtree) ∧
        sizeB (insertB b lv rv yl yr).2 = sizeB b + 1) := by
  constructor
  · rintro (hc | hc)
    · obtain ⟨h1, h2, h3, h4, -, -⟩ := insertB_conflict_left hL h.toInv0 lv rv yl yr hc
      exact ⟨h1, h2, h3, h4⟩
    · by_cases hcl : ∃ e ∈ inorder b.ltree, e.1 = lv
      · obtain ⟨h1, h2, h3, h4, -, -⟩ := insertB_conflict_left hL h.toInv0 lv rv yl yr hcl
        exact ⟨h1, h2, h3, h4⟩
      · push_neg at hcl
        obtain ⟨h1, h2, h3, h4, -, -⟩ :=
          insertB_conflict_right hL hR h.toInv0 lv rv yl yr hcl hc
        exact ⟨h1, h2, h3, h4⟩
  · intro hal har
    obtain ⟨h1, h2, h3, h4, -, -, -⟩ := insertB_success hL hR h.toInv0 lv rv yl yr hal har
    exact ⟨h1, h2, h3, h4⟩

/-- Witness for C1: inserting (1, 10) into the empty bimap succeeds with
size 1. -/
theorem claim_C1_witness :
    (insertB (emptyBM natLt natLt) 1 10 5 7).1 = some (1, 10) ∧
      sizeB (insertB (emptyBM natLt natLt) 1 10 5 7).2 = 1 := by
  have h := (claim_C1 natLt_strict natLt_strict (Inv.emptyP natLt natLt) 1 10 5 7).2
      (by intro e he; simp [emptyBM, inorder] at he)
      (by intro e he; simp [emptyBM, inorder] at he)
  refine ⟨h.1, ?_⟩
  rw [h.2.2.2]
  rfl

/-- C2 (amended): after any sequence of public operations (insert, erase
by valid iterator / key / range, `at_or_default`, swap, copy, move), each
index's inorder walk is strictly increasing under that side's comparator,
no two live entries share a left value or a right value, and both indices
hold the same entries; `size()` equals the number of live entries on both
sides for every instance whose history contains no move-from — a
moved-from instance instead keeps its pre-move `size_` while holding no
entries. -/
theorem claim_C2_amended {L R : Type} [DecidableEq L] [DecidableEq R]
    {cL : L → L → Bool} {cR : R → R → Bool}
    (hL : StrictCmp cL) (hR : StrictCmp cR) :
    (∀ b : BM L R, Reach cL cR b →
      SortedBy b.cmpL Prod.fst (inorder b.ltree) ∧
      SortedBy b.cmpR Prod.snd (inorder b.rtree) ∧
      ((inorder b.ltree).map Prod.fst).Nodup ∧
      ((inorder b.ltree).map Prod.snd).Nodup ∧
      (inorder b.ltree).Perm (inorder b.rtree)) ∧
    (∀ b : BM L R, ReachNM cL cR b →
      sizeB b = (inorder b.ltree).length ∧ sizeB b = (inorder b.rtree).length) := by
  constructor
  · intro b hr
    have h0 := hr.inv0 hL hR
    have hc := hr.cmp_eq
    have hLb : StrictCmp b.cmpL := by rw [hc.1]; exact hL
    have hRb : StrictCmp b.cmpR := by rw [hc.2]; exact hR
    refine ⟨h0.ordL, h0.ordR, sortedBy_nodup_keys hLb h0.ordL, ?_, h0.perm⟩
    have hr2 : ((inorder b.rtree).map Prod.snd).Nodup := sortedBy_nodup_keys hRb h0.ordR
    exact ((h0.perm.map Prod.snd).nodup_iff).mpr hr2
  · intro b hr
    have hi := hr.inv hL hR
    exact ⟨hi.szEq, hi.szEq.trans hi.toInv0.perm.length_eq⟩

/-- Counterexample to C2 as stated: `move` is among the listed public
operations, and after insert(1,10) followed by a move-from, the
moved-from instance is reachable with `size() = 1` yet zero live entries
on both sides. -/
theorem claim_C2_cex :
    Reach natLt natLt (moveConstructB (insertB (emptyBM natLt natLt) 1 10 0 0).2).2 ∧
      sizeB (moveConstructB (insertB (emptyBM natLt natLt) 1 10 0 0).2).2 = 1 ∧
      inorder (moveConstructB (insertB (emptyBM natLt natLt) 1 10 0 0).2).2.ltree = [] ∧
      inorder (moveConstructB (insertB (emptyBM natLt natLt) 1 10 0 0).2).2.rtree = [] := by
  exact ⟨Reach.moveCons _ (Reach.ins _ 1 10 0 0 Reach.empty), rfl, rfl, rfl⟩

/-- Witness for C2 (amended) at a concrete reachable state: the bimap
holding (1, 10) satisfies both the ordering/uniqueness and the size
conclusions. -/
theorem claim_C2_witness :
    ((inorder (insertB (emptyBM natLt natLt) 1 10 0 0).2.ltree).map Prod.fst).Nodup ∧
      sizeB (insertB (emptyBM natLt natLt) 1 10 0 0).2 =
        (inorder (insertB (emptyBM natLt natLt) 1 10 0 0).2.ltree).length := by
  have h := claim_C2_amended (L := Nat) (R := Nat) natLt_strict natLt_strict
  refine ⟨(h.1 _ (Reach.ins _ 1 10 0 0 Reach.empty)).2.2.1, ?_⟩
  exact (h.2 _ (ReachNM.ins _ 1 10 0 0 ReachNM.empty)).1

/-- C3: for every live entry `e`, `flip(find_left(e.left)) ==
find_right(e.right)` and `flip(find_right(e.right)) ==
find_left(e.left)`. -/
theorem claim_C3 {L R : Type} [DecidableEq L] [DecidableEq R] {b : BM L R}
    (hL : StrictCmp b.cmpL) (hR : StrictCmp b.cmpR) (h : Inv0 b)
    {e : L × R} (he : e ∈ inorder b.ltree) :
    flipL (findLeftB b e.1).1 = (findRightB b e.2).1 ∧
      flipR (findRightB b e.2).1 = (findLeftB b e.1).1 := by
  have h1 : (findLeftB b e.1).1 = some e :=
    (findLeftB_fst_some_iff hL h).mpr ⟨he, rfl⟩
  have h2 : (findRightB b e.2).1 = some e :=
    (findRightB_fst_some_iff hR h).mpr ⟨h.perm.mem_iff.mp he, rfl⟩
  rw [h1, h2]
  exact ⟨rfl, rfl⟩

/-- Witness for C3 at the bimap holding (1, 10). -/
theorem claim_C3_witness :
    flipL (findLeftB (insertB (emptyBM natLt natLt) 1 10 0 0).2 1).1 =
      (findRightB (insertB (emptyBM natLt natLt) 1 10 0 0).2 10).1 := by
  have hinv : Inv (insertB (emptyBM natLt natLt) 1 10 0 0).2 :=
    Inv.insertB natLt_strict natLt_strict (Inv.emptyP natLt natLt) 1 10 0 0
  have hs := insertB_success natLt_strict natLt_strict
    (Inv.emptyP natLt natLt).toInv0 1 10 0 0
    (by intro e he; simp [emptyBM, inorder] at he)
    (by intro e he; simp [emptyBM, inorder] at he)
  have hmem : ((1 : Nat), (10 : Nat)) ∈
      inorder (insertB (emptyBM natLt natLt) 1 10 0 0).2.ltree :=
    hs.2.1.mem_iff.mpr (List.mem_cons_self _ _)
  have hL1 : StrictCmp (insertB (emptyBM natLt natLt) 1 10 0 0).2.cmpL := by
    rw [insertB_cmpL]; exact natLt_strict
  have hR1 : StrictCmp (insertB (emptyBM natLt natLt) 1 10 0 0).2.cmpR := by
    rw [insertB_cmpR]; exact natLt_strict
  exact (claim_C3 hL1 hR1 hinv.toInv0 (e := ((1 : Nat), (10 : Nat))) hmem).1

/-- C5 (the code bug): the defaulted move constructor transfers both
indices' roots but merely copies the scalar `size_`, so the moved-from
instance has `begin == end` on both sides yet still reports its old
nonzero size and is not `empty()`. -/
theorem claim_C5_bug :
    sizeB (moveConstructB (insertB (emptyBM natLt natLt) 1 10 0 0).2).2 = 1 ∧
      emptyP (moveConstructB (insertB (emptyBM natLt natLt) 1 10 0 0).2).2 = false ∧
      beginL (moveConstructB (insertB (emptyBM natLt natLt) 1 10 0 0).2).2 = endL ∧
      beginR (moveConstructB (insertB (emptyBM natLt natLt) 1 10 0 0).2).2 = endR :=
  ⟨rfl, rfl, rfl, rfl⟩

/-- C6: `flip` carries the end position of either index to the end
position of the other — the shared sentinel (`root_pair`) case of
`bimap_iterator::flip`. -/
theorem claim_C6 (L R : Type) :
    flipL (L := L) (R := R) endL = endR ∧ flipR (L := L) (R := R) endR = endL :=
  ⟨rfl, rfl⟩

/-- Witness for C6 at concrete index types. -/
theorem claim_C6_witness :
    flipL (L := Nat) (R := Nat) endL = endR ∧
      flipR (L := Nat) (R := Nat) endR = endL :=
  claim_C6 Nat Nat

/-- Observable effect of `erase_right(value)`: exactly the entries whose
right value equals the key disappear (at most one exists under the
invariant). -/
theorem eraseRightKeyB_obs {b : BM L R} (hL : StrictCmp b.cmpL)
    (hR : StrictCmp b.cmpR) (h : Inv0 b) (dR : R) :
    inorder (eraseRightKeyB b dR).2.ltree =
        (inorder b.ltree).filter (fun e => decide (e.2 ≠ dR)) ∧
      inorder (eraseRightKeyB b dR).2.rtree =
        (inorder b.rtree).filter (fun e => decide (e.2 ≠ dR)) := by
  simp only [eraseRightKeyB]
  cases hf : (findRightB b dR).1 with
  | none =>
    have habs := (findRightB_fst_none_iff hR h).mp hf
    have h1 : (inorder b.ltree).filter (fun e => decide (e.2 ≠ dR)) = inorder b.ltree := by
      rw [List.filter_eq_self]
      intro e he
      exact decide_eq_true (habs e (h.perm.mem_iff.mp he))
    have h2 : (inorder b.rtree).filter (fun e => decide (e.2 ≠ dR)) = inorder b.rtree := by
      rw [List.filter_eq_self]
      intro e he
      exact decide_eq_true (habs e he)
    rw [h1, h2]
    exact ⟨congrArg inorder (findRightB_snd_ltree b dR), findRightB_rtree b dR⟩
  | some e =>
    obtain ⟨hmem, hk⟩ := (findRightB_fst_some_iff hR h).mp hf
    rw [eraseRightAtB_snd]
    obtain ⟨hlt, hrt, -, -, -⟩ :=
      eraseLeftAtB_obs (b := (findRightB b dR).2) hL hR (h.findRight0 dR) e
    rw [congrArg inorder (findRightB_snd_ltree b dR)] at hlt
    rw [findRightB_rtree b dR] at hrt
    have hrnodup : ((inorder b.rtree).map Prod.snd).Nodup :=
      sortedBy_nodup_keys hR h.ordR
    have hcong : ∀ x ∈ inorder b.rtree, decide (x ≠ e) = decide (x.2 ≠ dR) := by
      intro x hx
      by_cases hxe : x = e
      · subst hxe
        simp [hk]
      · have hx2 : x.2 ≠ dR := by
          intro hx2
          exact hxe (List.inj_on_of_nodup_map hrnodup hx hmem (by rw [hx2, hk]))
        simp [hxe, hx2]
    constructor
    · rw [hlt]
      refine List.filter_congr ?_
      intro x hx
      exact hcong x (h.perm.mem_iff.mp hx)
    · rw [hrt]
      exact List.filter_congr hcong

/-- Observable effect of `erase_left(value)`: exactly the entries whose
left value equals the key disappear (at most one exists under the
invariant). -/
theorem eraseLeftKeyB_obs {b : BM L R} (hL : StrictCmp b.cmpL)
    (hR : StrictCmp b.cmpR) (h : Inv0 b) (dL : L) :
    inorder (eraseLeftKeyB b dL).2.ltree =
        (inorder b.ltree).filter (fun e => decide (e.1 ≠ dL)) ∧
      inorder (eraseLeftKeyB b dL).2.rtree =
        (inorder b.rtree).filter (fun e => decide (e.1 ≠ dL)) := by
  simp only [eraseLeftKeyB]
  cases hf : (findLeftB b dL).1 with
  | none =>
    have habs := (findLeftB_fst_none_iff hL h).mp hf
    have h1 : (inorder b.ltree).filter (fun e => decide (e.1 ≠ dL)) = inorder b.ltree := by
      rw [List.filter_eq_self]
      intro e he
      exact decide_eq_true (habs e he)
    have h2 : (inorder b.rtree).filter (fun e => decide (e.1 ≠ dL)) = inorder b.rtree := by
      rw [List.filter_eq_self]
      intro e he
      exact decide_eq_true (habs e (h.perm.mem_iff.mpr he))
    rw [h1, h2]
    exact ⟨findLeftB_ltree b dL, congrArg inorder (findLeftB_snd_rtree b dL)⟩
  | some e =>
    obtain ⟨hmem, hk⟩ := (findLeftB_fst_some_iff hL h).mp hf
    obtain ⟨hlt, hrt, -, -, -⟩ :=
      eraseLeftAtB_obs (b := (findLeftB b dL).2) hL hR (h.findLeft0 dL) e
    rw [findLeftB_ltree b dL] at hlt
    rw [congrArg inorder (findLeftB_snd_rtree b dL)] at hrt
    have hlnodup : ((inorder b.ltree).map Prod.fst).Nodup :=
      sortedBy_nodup_keys hL h.ordL
    have hcong : ∀ x ∈ inorder b.ltree, decide (x ≠ e) = decide (x.1 ≠ dL) := by
      intro x hx
      by_cases hxe : x = e
      · subst hxe
        simp [hk]
      · have hx1 : x.1 ≠ dL := by
          intro hx1
          exact hxe (List.inj_on_of_nodup_map hlnodup hx hmem (by rw [hx1, hk]))
        simp [hxe, hx1]
    constructor
    · rw [hlt]
      exact List.filter_congr hcong
    · rw [hrt]
      refine List.filter_congr ?_
      intro x hx
      exact hcong x (h.perm.mem_iff.mpr hx)

/-- C4: with the queried key absent, `at_left_or_default` (resp.
`at_right_or_default`) first erases the entry (if any) whose
opposite-side value equals the default-constructed value (`dR`, resp.
`dL`), then inserts the (key, default) pairing and returns the default;
with the key present they return the paired value of the other side and
change nothing observable. -/
theorem claim_C4 {L R : Type} [DecidableEq L] [DecidableEq R] {b : BM L R}
    (hL : StrictCmp b.cmpL) (hR : StrictCmp b.cmpR) (h : Inv0 b)
    (k : L) (dR : R) (yl yr : Nat) (w : R) (dL : L) (yl2 yr2 : Nat) :
    ((∀ e ∈ inorder b.ltree, e.1 ≠ k) →
      (atLeftOrDefaultB b k dR yl yr).1 = some dR ∧
        (inorder (atLeftOrDefaultB b k dR yl yr).2.ltree).Perm
          ((k, dR) :: (inorder b.ltree).filter (fun e => decide (e.2 ≠ dR))) ∧
        (inorder (atLeftOrDefaultB b k dR yl yr).2.rtree).Perm
          ((k, dR) :: (inorder b.ltree).filter (fun e => decide (e.2 ≠ dR)))) ∧
    (∀ e ∈ inorder b.ltree, e.1 = k →
      (atLeftOrDefaultB b k dR yl yr).1 = some e.2 ∧
        inorder (atLeftOrDefaultB b k dR yl yr).2.ltree = inorder b.ltree ∧
        inorder (atLeftOrDefaultB b k dR yl yr).2.rtree = inorder b.rtree ∧
        sizeB (atLeftOrDefaultB b k dR yl yr).2 = sizeB b) ∧
    ((∀ e ∈ inorder b.rtree, e.2 ≠ w) →
      (atRightOrDefaultB b w dL yl2 yr2).1 = some dL ∧
        (inorder (atRightOrDefaultB b w dL yl2 yr2).2.ltree).Perm
          ((dL, w) :: (inorder b.ltree).filter (fun e => decide (e.1 ≠ dL))) ∧
        (inorder (atRightOrDefaultB b w dL yl2 yr2).2.rtree).Perm
          ((dL, w) :: (inorder b.ltree).filter (fun e => decide (e.1 ≠ dL)))) ∧
    (∀ e ∈ inorder b.rtree, e.2 = w →
      (atRightOrDefaultB b w dL yl2 yr2).1 = some e.1 ∧
        inorder (atRightOrDefaultB b w dL yl2 yr2).2.ltree = inorder b.ltree ∧
        inorder (atRightOrDefaultB b w dL yl2 yr2).2.rtree = inorder b.rtree ∧
        sizeB (atRightOrDefaultB b w dL yl2 yr2).2 = sizeB b) := by
  refine ⟨?_, ?_, ?_, ?_⟩
  · intro habs
    have hf : (findLeftB b k).1 = none := (findLeftB_fst_none_iff hL h).mpr habs
    have h1 : Inv0 (findLeftB b k).2 := h.findLeft0 k
    have hobs := eraseRightKeyB_obs (b := (findLeftB b k).2) hL hR h1 dR
    rw [findLeftB_ltree] at hobs
    have hrt1 : inorder (findLeftB b k).2.rtree = inorder b.rtree := rfl
    rw [hrt1] at hobs
    have her : Inv0 (eraseRightKeyB (findLeftB b k).2 dR).2 :=
      Inv0.eraseRightKeyP (b := (findLeftB b k).2) hL hR h1 dR
    have hL2 : StrictCmp (eraseRightKeyB (findLeftB b k).2 dR).2.cmpL := by
      rw [eraseRightKeyB_cmpL]; exact hL
    have hR2 : StrictCmp (eraseRightKeyB (findLeftB b k).2 dR).2.cmpR := by
      rw [eraseRightKeyB_cmpR]; exact hR
    have habsL2 : ∀ e ∈ inorder (eraseRightKeyB (findLeftB b k).2 dR).2.ltree,
        e.1 ≠ k := by
      intro e he
      rw [hobs.1] at he
      exact habs e (List.mem_of_mem_filter he)
    have habsR2 : ∀ e ∈ inorder (eraseRightKeyB (findLeftB b k).2 dR).2.rtree,
        e.2 ≠ dR := by
      intro e he
      rw [hobs.2] at he
      exact of_decide_eq_true (List.mem_filter.mp he).2
    have hins := insertB_success (b := (eraseRightKeyB (findLeftB b k).2 dR).2)
      hL2 hR2 her k dR yl yr habsL2 habsR2
    have hstep : atLeftOrDefaultB b k dR yl yr =
        (some dR, (insertB (eraseRightKeyB (findLeftB b k).2 dR).2 k dR yl yr).2) := by
      simp only [atLeftOrDefaultB, hf, hins.1]
    rw [hstep]
    refine ⟨rfl, ?_, ?_⟩
    · refine hins.2.1.trans ?_
      rw [hobs.1]
    · refine hins.2.2.1.trans ?_
      rw [hobs.2]
      exact List.Perm.cons _ ((h.perm.symm).filter _)
  · intro e he hk1
    have hf : (findLeftB b k).1 = some e := (findLeftB_fst_some_iff hL h).mpr ⟨he, hk1⟩
    have hstep : atLeftOrDefaultB b k dR yl yr = (some e.2, (findLeftB b k).2) := by
      simp only [atLeftOrDefaultB, hf]
    rw [hstep]
    exact ⟨rfl, findLeftB_ltree b k, rfl, rfl⟩
  · intro habs
    have hf : (findRightB b w).1 = none := (findRightB_fst_none_iff hR h).mpr habs
    have h1 : Inv0 (findRightB b w).2 := h.findRight0 w
    have hobs := eraseLeftKeyB_obs (b := (findRightB b w).2) hL hR h1 dL
    have hlt1 : inorder (findRightB b w).2.ltree = inorder b.ltree := rfl
    rw [hlt1] at hobs
    rw [findRightB_rtree] at hobs
    have her : Inv0 (eraseLeftKeyB (findRightB b w).2 dL).2 :=
      Inv0.eraseLeftKeyP (b := (findRightB b w).2) hL hR h1 dL
    have hL2 : StrictCmp (eraseLeftKeyB (findRightB b w).2 dL).2.cmpL := by
      rw [eraseLeftKeyB_cmpL]; exact hL
    have hR2 : StrictCmp (eraseLeftKeyB (findRightB b w).2 dL).2.cmpR := by
      rw [eraseLeftKeyB_cmpR]; exact hR
    have habsL2 : ∀ e ∈ inorder (eraseLeftKeyB (findRightB b w).2 dL).2.ltree,
        e.1 ≠ dL := by
      intro e he
      rw [hobs.1] at he
      exact of_decide_eq_true (List.mem_filter.mp he).2
    have habsR2 : ∀ e ∈ inorder (eraseLeftKeyB (findRightB b w).2 dL).2.rtree,
        e.2 ≠ w := by
      intro e he
      rw [hobs.2] at he
      exact habs e (List.mem_of_mem_filter he)
    have hins := insertB_success (b := (eraseLeftKeyB (findRightB b w).2 dL).2)
      hL2 hR2 her dL w yl2 yr2 habsL2 habsR2
    have hstep : atRightOrDefaultB b w dL yl2 yr2 =
        (some dL, (insertB (eraseLeftKeyB (findRightB b w).2 dL).2 dL w yl2 yr2).2) := by
      simp only [atRightOrDefaultB, hf, hins.1]
    rw [hstep]
    refine ⟨rfl, ?_, ?_⟩
    · refine hins.2.1.trans ?_
      rw [hobs.1]
    · refine hins.2.2.1.trans ?_
      rw [hobs.2]
      exact List.Perm.cons _ ((h.perm.symm).filter _)
  · intro e he hk1
    have hf : (findRightB b w).1 = some e := (findRightB_fst_some_iff hR h).mpr ⟨he, hk1⟩
    have hstep : atRightOrDefaultB b w dL yl2 yr2 = (some e.1, (findRightB b w).2) := by
      simp only [atRightOrDefaultB, hf]
    rw [hstep]
    exact ⟨rfl, rfl, findRightB_rtree b w, rfl⟩

/-- Witness for C4 — the spec's eviction scenario: after `(1, 0)` holds
the default right value `0`, `at_left_or_default(2)` evicts it, creates
`(2, 0)`, returns the default, and `find_left(1)` afterwards is
`end_left()`. -/
theorem claim_C4_witness :
    (atLeftOrDefaultB (insertB (emptyBM natLt natLt) 1 0 0 0).2 2 0 5 6).1 = some 0 ∧
      (findLeftB (atLeftOrDefaultB (insertB (emptyBM natLt natLt) 1 0 0 0).2 2 0 5 6).2 1).1 =
        endL := by
  have hinv2 : Inv (insertB (emptyBM natLt natLt) 1 0 0 0).2 :=
    Inv.insertB natLt_strict natLt_strict (Inv.emptyP natLt natLt) 1 0 0 0
  have hsucc := insertB_success natLt_strict natLt_strict
    (Inv.emptyP natLt natLt).toInv0 1 0 0 0
    (by intro e he; simp [emptyBM, inorder] at he)
    (by intro e he; simp [emptyBM, inorder] at he)
  have hl2 : inorder (insertB (emptyBM natLt natLt) 1 0 0 0).2.ltree = [(1, 0)] :=
    List.perm_singleton.mp hsucc.2.1
  have hL2 : StrictCmp (insertB (emptyBM natLt natLt) 1 0 0 0).2.cmpL := by
    rw [insertB_cmpL]; exact natLt_strict
  have hR2 : StrictCmp (insertB (emptyBM natLt natLt) 1 0 0 0).2.cmpR := by
    rw [insertB_cmpR]; exact natLt_strict
  have habs : ∀ e ∈ inorder (insertB (emptyBM natLt natLt) 1 0 0 0).2.ltree,
      e.1 ≠ 2 := by
    rw [hl2]
    intro e he
    rw [List.mem_singleton] at he
    subst he
    decide
  have happ := (claim_C4 hL2 hR2 hinv2.toInv0 2 0 5 6 0 0 7 8).1 habs
  refine ⟨happ.1, ?_⟩
  have hperm := happ.2.1
  rw [hl2] at hperm
  have hfil : List.filter (fun e => decide (e.2 ≠ 0)) [((1 : Nat), (0 : Nat))] = [] := rfl
  rw [hfil] at hperm
  have hsinv : Inv0 (atLeftOrDefaultB (insertB (emptyBM natLt natLt) 1 0 0 0).2 2 0 5 6).2 :=
    Inv0.atLeftDef0 (b := (insertB (emptyBM natLt natLt) 1 0 0 0).2)
      hL2 hR2 hinv2.toInv0 2 0 5 6
  have hLs : StrictCmp (atLeftOrDefaultB (insertB (emptyBM natLt natLt) 1 0 0 0).2 2 0 5 6).2.cmpL := by
    rw [atLeftOrDefaultB_cmpL, insertB_cmpL]; exact natLt_strict
  refine (findLeftB_fst_none_iff hLs hsinv).mpr ?_
  intro e he
  have := hperm.mem_iff.mp he
  rw [List.mem_singleton] at this
  subst this
  decide

/-- C7: `at_left` / `at_right` signal the missing-key failure
(`std::out_of_range`, embedded as `none`) exactly when the key is absent
from the queried side; on a hit they return the paired value; in every
case the observable state (both inorder sequences and `size_`) is
unchanged.  The other operations have no failure channel: their
embeddings return positions or booleans. -/
theorem claim_C7 {L R : Type} [DecidableEq L] [DecidableEq R] {b : BM L R}
    (hL : StrictCmp b.cmpL) (hR : StrictCmp b.cmpR) (h : Inv0 b) (k : L) (w : R) :
    (((atLeftB b k).1 = none) ↔ ∀ e ∈ inorder b.ltree, e.1 ≠ k) ∧
      (∀ e ∈ inorder b.ltree, e.1 = k → (atLeftB b k).1 = some e.2) ∧
      inorder (atLeftB b k).2.ltree = inorder b.ltree ∧
      inorder (atLeftB b k).2.rtree = inorder b.rtree ∧
      sizeB (atLeftB b k).2 = sizeB b ∧
      (((atRightB b w).1 = none) ↔ ∀ e ∈ inorder b.rtree, e.2 ≠ w) ∧
      (∀ e ∈ inorder b.rtree, e.2 = w → (atRightB b w).1 = some e.1) ∧
      inorder (atRightB b w).2.ltree = inorder b.ltree ∧
      inorder (atRightB b w).2.rtree = inorder b.rtree ∧
      sizeB (atRightB b w).2 = sizeB b := by
  have heqL : atLeftB b k = (((findLeftB b k).1).map Prod.snd, (findLeftB b k).2) := by
    rw [atLeftB]
    cases hf : (findLeftB b k).1 with
    | none => rfl
    | some e => rfl
  have heqR : atRightB b w = (((findRightB b w).1).map Prod.fst, (findRightB b w).2) := by
    rw [atRightB]
    cases hf : (findRightB b w).1 with
    | none => rfl
    | some e => rfl
  refine ⟨?_, ?_, ?_, ?_, ?_, ?_, ?_, ?_, ?_, ?_⟩
  · rw [heqL]
    simp only [Option.map_eq_none']
    exact findLeftB_fst_none_iff hL h
  · intro e he hk1
    have hf : (findLeftB b k).1 = some e := (findLeftB_fst_some_iff hL h).mpr ⟨he, hk1⟩
    rw [heqL, hf]
    rfl
  · rw [heqL]; exact findLeftB_ltree b k
  · rw [heqL]; exact rfl
  · rw [heqL]; exact rfl
  · rw [heqR]
    simp only [Option.map_eq_none']
    exact findRightB_fst_none_iff hR h
  · intro e he hk1
    have hf : (findRightB b w).1 = some e := (findRightB_fst_some_iff hR h).mpr ⟨he, hk1⟩
    rw [heqR, hf]
    rfl
  · rw [heqR]; exact rfl
  · rw [heqR]; exact findRightB_rtree b w
  · rw [heqR]; exact rfl

/-- Witness for C7: on the bimap holding (1, 10), `at_left(2)` fails and
the state is unchanged. -/
theorem claim_C7_witness :
    (atLeftB (insertB (emptyBM natLt natLt) 1 10 0 0).2 2).1 = none ∧
      sizeB (atLeftB (insertB (emptyBM natLt natLt) 1 10 0 0).2 2).2 =
        sizeB (insertB (emptyBM natLt natLt) 1 10 0 0).2 := by
  have hinv : Inv (insertB (emptyBM natLt natLt) 1 10 0 0).2 :=
    Inv.insertB natLt_strict natLt_strict (Inv.emptyP natLt natLt) 1 10 0 0
  have hsucc := insertB_success natLt_strict natLt_strict
    (Inv.emptyP natLt natLt).toInv0 1 10 0 0
    (by intro e he; simp [emptyBM, inorder] at he)
    (by intro e he; simp [emptyBM, inorder] at he)
  have hl2 : inorder (insertB (emptyBM natLt natLt) 1 10 0 0).2.ltree = [(1, 10)] :=
    List.perm_singleton.mp hsucc.2.1
  have hL2 : StrictCmp (insertB (emptyBM natLt natLt) 1 10 0 0).2.cmpL := by
    rw [insertB_cmpL]; exact natLt_strict
  have hR2 : StrictCmp (insertB (emptyBM natLt natLt) 1 10 0 0).2.cmpR := by
    rw [insertB_cmpR]; exact natLt_strict
  have hc := claim_C7 hL2 hR2 hinv.toInv0 2 10
  refine ⟨hc.1.mpr ?_, hc.2.2.2.2.1⟩
  rw [hl2]
  intro e he
  rw [List.mem_singleton] at he
  subst he
  decide

/-- C8: `lower_bound` returns the position of the first element not less
than the query (`end` if none), `upper_bound` the first strictly greater,
and `find` returns the `lower_bound` position when it holds an element
comparing equal to the query, else `end` — on either side. -/
theorem claim_C8 {L R : Type} [DecidableEq L] [DecidableEq R] {b : BM L R}
    (hL : StrictCmp b.cmpL) (hR : StrictCmp b.cmpR) (h : Inv0 b) (v : L) (w : R) :
    (lowerBoundLeftB b v).1 = (inorder b.ltree).find? (fun e => !(b.cmpL e.1 v)) ∧
      (upperBoundLeftB b v).1 = (inorder b.ltree).find? (fun e => b.cmpL v e.1) ∧
      ((findLeftB b v).1 = match (lowerBoundLeftB b v).1 with
        | some e => if e.1 = v then some e else none
        | none => none) ∧
      (lowerBoundRightB b w).1 = (inorder b.rtree).find? (fun e => !(b.cmpR e.2 w)) ∧
      (upperBoundRightB b w).1 = (inorder b.rtree).find? (fun e => b.cmpR w e.2) ∧
      ((findRightB b w).1 = match (lowerBoundRightB b w).1 with
        | some e => if e.2 = w then some e else none
        | none => none) := by
  refine ⟨?_, ?_, ?_, ?_, ?_, ?_⟩
  · exact lowerBoundT_fst hL h.ordL
  · exact upperBoundT_fst hL h.ordL
  · show (findT b.cmpL Prod.fst v b.ltree).1 =
      (match (lowerBoundT b.cmpL Prod.fst v b.ltree).1 with
        | some e => if e.1 = v then some e else none
        | none => none)
    rw [findT]
    cases hm : (lowerBoundT b.cmpL Prod.fst v b.ltree).1 with
    | none => rfl
    | some e => rfl
  · exact lowerBoundT_fst hR h.ordR
  · exact upperBoundT_fst hR h.ordR
  · show (findT b.cmpR Prod.snd w b.rtree).1 =
      (match (lowerBoundT b.cmpR Prod.snd w b.rtree).1 with
        | some e => if e.2 = w then some e else none
        | none => none)
    rw [findT]
    cases hm : (lowerBoundT b.cmpR Prod.snd w b.rtree).1 with
    | none => rfl
    | some e => rfl

/-- Witness for C8: on the bimap holding (1, 10), `lower_bound_left(0)`
finds the entry and `upper_bound_left(1)` is `end_left()`. -/
theorem claim_C8_witness :
    (lowerBoundLeftB (insertB (emptyBM natLt natLt) 1 10 0 0).2 0).1 =
        (inorder (insertB (emptyBM natLt natLt) 1 10 0 0).2.ltree).find?
          (fun e => !(natLt e.1 0)) ∧
      (upperBoundLeftB (insertB (emptyBM natLt natLt) 1 10 0 0).2 1).1 =
        (inorder (insertB (emptyBM natLt natLt) 1 10 0 0).2.ltree).find?
          (fun e => natLt 1 e.1) := by
  have hinv : Inv (insertB (emptyBM natLt natLt) 1 10 0 0).2 :=
    Inv.insertB natLt_strict natLt_strict (Inv.emptyP natLt natLt) 1 10 0 0
  have hL2 : StrictCmp (insertB (emptyBM natLt natLt) 1 10 0 0).2.cmpL := by
    rw [insertB_cmpL]; exact natLt_strict
  have hR2 : StrictCmp (insertB (emptyBM natLt natLt) 1 10 0 0).2.cmpR := by
    rw [insertB_cmpR]; exact natLt_strict
  have hc0 := claim_C8 hL2 hR2 hinv.toInv0 0 0
  have hc1 := claim_C8 hL2 hR2 hinv.toInv0 1 0
  have hcmp : (insertB (emptyBM natLt natLt) 1 10 0 0).2.cmpL = natLt :=
    insertB_cmpL (emptyBM natLt natLt) 1 10 0 0
  constructor
  · have := hc0.1
    rw [hcmp] at this
    exact this
  · have := hc1.2.1
    rw [hcmp] at this
    exact this

/-- C9: the assignment guard tests value inequality (`*this != other`),
not identity: when the operands compare equal under `operator==`, copy
assignment leaves the target untouched and move assignment additionally
leaves the source untouched (it is not emptied). -/
theorem claim_C9 {L R : Type} [DecidableEq L] [DecidableEq R]
    (dL : L → L → Bool) (dR : R → R → Bool) (a c : BM L R) (ys : Nat → Nat × Nat)
    (hbe : bmBeq a c = true) :
    copyAssignB dL dR a c ys = a ∧ moveAssignB a c = (a, c) := by
  rw [copyAssignB, moveAssignB, if_pos hbe, if_pos hbe]
  exact ⟨rfl, rfl⟩

/-- Witness for C9: two independently built one-entry bimaps holding
(1, 10) (with different random priorities) compare equal, so move
assignment between them is skipped and the source keeps its contents. -/
theorem claim_C9_witness :
    moveAssignB (insertB (emptyBM natLt natLt) 1 10 3 4).2
        (insertB (emptyBM natLt natLt) 1 10 8 9).2 =
      ((insertB (emptyBM natLt natLt) 1 10 3 4).2,
        (insertB (emptyBM natLt natLt) 1 10 8 9).2) := by
  have hsa := insertB_success natLt_strict natLt_strict
    (Inv.emptyP natLt natLt).toInv0 1 10 3 4
    (by intro e he; simp [emptyBM, inorder] at he)
    (by intro e he; simp [emptyBM, inorder] at he)
  have hsc := insertB_success natLt_strict natLt_strict
    (Inv.emptyP natLt natLt).toInv0 1 10 8 9
    (by intro e he; simp [emptyBM, inorder] at he)
    (by intro e he; simp [emptyBM, inorder] at he)
  have hla : inorder (insertB (emptyBM natLt natLt) 1 10 3 4).2.ltree = [(1, 10)] :=
    List.perm_singleton.mp hsa.2.1
  have hlc : inorder (insertB (emptyBM natLt natLt) 1 10 8 9).2.ltree = [(1, 10)] :=
    List.perm_singleton.mp hsc.2.1
  have hbe : bmBeq (insertB (emptyBM natLt natLt) 1 10 3 4).2
      (insertB (emptyBM natLt natLt) 1 10 8 9).2 = true := by
    rw [bmBeq, hla, hlc, hsa.2.2.2.1, hsc.2.2.2.1]
    rfl
  exact (claim_C9 natLt natLt _ _ (fun _ => (0, 0)) hbe).2

/-- C10: the copy constructor builds the new instance with
default-constructed comparator objects (`CompareLeft()`, `CompareRight()`),
discarding the source's comparators: the copy's comparator fields equal
the defaults and both of its indices are ordered by the defaults, for
every source — including one built with non-default comparators. -/
theorem claim_C10 {L R : Type} [DecidableEq L] [DecidableEq R]
    {dL : L → L → Bool} {dR : R → R → Bool} (hdL : StrictCmp dL)
    (hdR : StrictCmp dR) (src : BM L R) (ys : Nat → Nat × Nat) :
    (copyConstructB dL dR src ys).cmpL = dL ∧
      (copyConstructB dL dR src ys).cmpR = dR ∧
      SortedBy dL Prod.fst (inorder (copyConstructB dL dR src ys).ltree) ∧
      SortedBy dR Prod.snd (inorder (copyConstructB dL dR src ys).rtree) := by
  have h := Inv.copyConstructP hdL hdR src ys
  have hc := copyConstructB_cmp dL dR src ys
  refine ⟨hc.1, hc.2, ?_, ?_⟩
  · have h1 := h.ordL
    rw [SortedBy, hc.1] at h1
    exact h1
  · have h1 := h.ordR
    rw [SortedBy, hc.2] at h1
    exact h1

/-- Witness for C10: copying a source built with the reversed comparator
`natGt` produces an instance whose comparators are the defaults (`natLt`)
and whose left index is sorted ascending. -/
theorem claim_C10_witness :
    (copyConstructB natLt natLt
        (insertB (insertB (emptyBM natGt natGt) 1 10 0 0).2 2 20 0 0).2
        (fun _ => (0, 0))).cmpL = natLt ∧
      SortedBy natLt Prod.fst
        (inorder (copyConstructB natLt natLt
          (insertB (insertB (emptyBM natGt natGt) 1 10 0 0).2 2 20 0 0).2
          (fun _ => (0, 0))).ltree) := by
  have h := claim_C10 natLt_strict natLt_strict
    (insertB (insertB (emptyBM natGt natGt) 1 10 0 0).2 2 20 0 0).2
    (fun _ => (0, 0))
  exact ⟨h.1, h.2.2.1⟩

end BimapModel
